import Mathlib

/-!
Verification of the BVH acceleration-structure subsystem of the `pbr-rust`
renderer.  Geometry is embedded over `ℚ` (exact arithmetic standing in for
the renderer's `Float` coordinates).  The data structures of
`src/accelerators/bvh/common.rs` are translated field by field; the builder,
linearizer and traversal engine (whose sources are not part of the crate
snapshot) are modelled from the specification.
-/

namespace PbrBVH

/-- A coordinate axis, as in the renderer's `Axis` enum (`X` is the default). -/
inductive Axis : Type where
  | X | Y | Z
deriving DecidableEq

instance : Inhabited Axis := ⟨Axis.X⟩

/-- A 3D point / vector with rational coordinates. -/
structure Point3 where
  x : ℚ
  y : ℚ
  z : ℚ
deriving DecidableEq

instance : Add Point3 := ⟨fun p q => ⟨p.x + q.x, p.y + q.y, p.z + q.z⟩⟩

instance : SMul ℚ Point3 := ⟨fun c p => ⟨c * p.x, c * p.y, c * p.z⟩⟩

/-- Coordinate of a point along a given axis. -/
def Point3.axisCoord (p : Point3) : Axis → ℚ
  | Axis.X => p.x
  | Axis.Y => p.y
  | Axis.Z => p.z

/-- An axis-aligned bounding box, as in the renderer's `Bounds3f`. -/
structure Bounds3 where
  p_min : Point3
  p_max : Point3
deriving DecidableEq

/-- Componentwise min/max union of two boxes (`Bounds3f::union`). -/
def Bounds3.union (b1 b2 : Bounds3) : Bounds3 :=
  { p_min := ⟨min b1.p_min.x b2.p_min.x, min b1.p_min.y b2.p_min.y, min b1.p_min.z b2.p_min.z⟩
    p_max := ⟨max b1.p_max.x b2.p_max.x, max b1.p_max.y b2.p_max.y, max b1.p_max.z b2.p_max.z⟩ }

/-- Membership of a point in a box (all coordinates within the slabs). -/
def Bounds3.containsPoint (b : Bounds3) (p : Point3) : Prop :=
  b.p_min.x ≤ p.x ∧ p.x ≤ b.p_max.x ∧
  b.p_min.y ≤ p.y ∧ p.y ≤ b.p_max.y ∧
  b.p_min.z ≤ p.z ∧ p.z ≤ b.p_max.z

instance (b : Bounds3) (p : Point3) : Decidable (b.containsPoint p) := by
  unfold Bounds3.containsPoint; infer_instance

/-- One box is inside another (componentwise comparison of the corners). -/
def Bounds3.subsetOf (b1 b2 : Bounds3) : Prop :=
  b2.p_min.x ≤ b1.p_min.x ∧ b1.p_max.x ≤ b2.p_max.x ∧
  b2.p_min.y ≤ b1.p_min.y ∧ b1.p_max.y ≤ b2.p_max.y ∧
  b2.p_min.z ≤ b1.p_min.z ∧ b1.p_max.z ≤ b2.p_max.z

/-- A box is "empty"/invalid when some min corner exceeds its max corner;
the renderer's default `Bounds3f` (min = +MAX, max = -MAX) is such a box. -/
def Bounds3.isEmptyBox (b : Bounds3) : Prop :=
  b.p_max.x < b.p_min.x ∨ b.p_max.y < b.p_min.y ∨ b.p_max.z < b.p_min.z

instance (b : Bounds3) : Decidable b.isEmptyBox := by
  unfold Bounds3.isEmptyBox; infer_instance

/-- Modelled from the spec: stand-in for the renderer's default (invalid)
`Bounds3f`, whose corners are at `+MAX`/`-MAX` floats; over `ℚ` we pick a
concrete inverted box. -/
def Bounds3.invalid : Bounds3 :=
  { p_min := ⟨1, 1, 1⟩, p_max := ⟨0, 0, 0⟩ }

/-- Diagonal vector of a box (`Bounds3f::diagonal`). -/
def Bounds3.diagonal (b : Bounds3) : Point3 :=
  ⟨b.p_max.x - b.p_min.x, b.p_max.y - b.p_min.y, b.p_max.z - b.p_min.z⟩

/-- Axis of maximum extent of a box (`Bounds3f::maximum_extent`). -/
def Bounds3.maximumExtent (b : Bounds3) : Axis :=
  let d := b.diagonal
  if d.x > d.y ∧ d.x > d.z then Axis.X
  else if d.y > d.z then Axis.Y
  else Axis.Z

/-- Surface area of a box (`Bounds3f::surface_area`). -/
def Bounds3.surfaceArea (b : Bounds3) : ℚ :=
  let d := b.diagonal
  2 * (d.x * d.y + d.x * d.z + d.y * d.z)

/-- Normalized offset of a coordinate within a box along one axis
(`Bounds3f::offset`, one component); degenerate extent maps to 0. -/
def Bounds3.offsetAlong (b : Bounds3) (ax : Axis) (c : ℚ) : ℚ :=
  let lo := b.p_min.axisCoord ax
  let hi := b.p_max.axisCoord ax
  if hi > lo then (c - lo) / (hi - lo) else 0

/-- A ray: origin and direction.  The mutable `t_max` of the renderer's
`Ray` is passed separately to the queries. -/
structure Ray where
  o : Point3
  d : Point3

/-- Point reached by a ray at parameter `t`. -/
def Ray.at (r : Ray) (t : ℚ) : Point3 :=
  ⟨r.o.x + t * r.d.x, r.o.y + t * r.d.y, r.o.z + t * r.d.z⟩

/-- Modelled from the spec: one slab-clipping step of the ray/box
intersection predicate of the traversal engine (missing from the crate
snapshot): narrow the running parametric window `[t0, t1]` by the slab
`lo ≤ o + t*d ≤ hi`, returning `none` when the window empties. -/
def slabClip (o d lo hi : ℚ) (w : Option (ℚ × ℚ)) : Option (ℚ × ℚ) :=
  match w with
  | none => none
  | some (t0, t1) =>
    if d = 0 then
      if lo ≤ o ∧ o ≤ hi then some (t0, t1) else none
    else
      let ta := (lo - o) / d
      let tb := (hi - o) / d
      let t0' := max t0 (min ta tb)
      let t1' := min t1 (max ta tb)
      if t0' ≤ t1' then some (t0', t1') else none

/-- Modelled from the spec: the traversal engine's "bounds intersect the ray
within `(0, t_max)`" test, by clipping the window `[0, t_max]` against the
three slabs of the box. -/
def Bounds3.rayHit (b : Bounds3) (r : Ray) (t_max : ℚ) : Bool :=
  (slabClip r.o.z r.d.z b.p_min.z b.p_max.z
    (slabClip r.o.y r.d.y b.p_min.y b.p_max.y
      (slabClip r.o.x r.d.x b.p_min.x b.p_max.x (some (0, t_max))))).isSome

/-- Splitting method to use to subdivide primitives (`SplitMethod`). -/
inductive SplitMethod : Type where
  | SAH | HLBVH | Middle | EqualCounts
deriving DecidableEq

/-- Stores information about a primitive (`BVHPrimitiveInfo`). -/
structure BVHPrimitiveInfo where
  primitive_number : ℕ
  bounds : Bounds3
  centroid : Point3

/-- Create a `BVHPrimitiveInfo`: the centroid is the box midpoint
`0.5 * (p_min + p_max)`. -/
def BVHPrimitiveInfo.new (primitive_number : ℕ) (bounds : Bounds3) : BVHPrimitiveInfo :=
  { primitive_number := primitive_number
    bounds := bounds
    centroid := ((1 : ℚ)/2) • (bounds.p_min + bounds.p_max) }

/-- A node of the intermediate build tree (`BVHBuildNode`): bounds, the
two optional children, the partition axis, and the leaf's primitive range. -/
inductive BVHBuildNode : Type where
  | mk (bounds : Bounds3) (child0 child1 : Option BVHBuildNode) (split_axis : Axis)
      (first_prim_offset : ℕ) (n_primitives : ℕ)

def BVHBuildNode.bounds : BVHBuildNode → Bounds3
  | .mk b _ _ _ _ _ => b

def BVHBuildNode.child0 : BVHBuildNode → Option BVHBuildNode
  | .mk _ c0 _ _ _ _ => c0

def BVHBuildNode.child1 : BVHBuildNode → Option BVHBuildNode
  | .mk _ _ c1 _ _ _ => c1

/-- The two-element children array of the Rust struct, as a pair. -/
def BVHBuildNode.children (n : BVHBuildNode) : Option BVHBuildNode × Option BVHBuildNode :=
  (n.child0, n.child1)

def BVHBuildNode.split_axis : BVHBuildNode → Axis
  | .mk _ _ _ ax _ _ => ax

def BVHBuildNode.first_prim_offset : BVHBuildNode → ℕ
  | .mk _ _ _ _ f _ => f

def BVHBuildNode.n_primitives : BVHBuildNode → ℕ
  | .mk _ _ _ _ _ n => n

/-- A build node is a leaf when both children are absent. -/
def BVHBuildNode.isLeaf (n : BVHBuildNode) : Prop :=
  n.child0 = none ∧ n.child1 = none

/-- A build node is interior when both children are present. -/
def BVHBuildNode.isInterior (n : BVHBuildNode) : Prop :=
  (∃ c, n.child0 = some c) ∧ (∃ c, n.child1 = some c)

/-- Create a leaf BVH build node (`BVHBuildNode::new_leaf_node`). -/
def BVHBuildNode.new_leaf_node (first n : ℕ) (bounds : Bounds3) : BVHBuildNode :=
  .mk bounds none none default first n

/-- Allocate an interior BVH build node (`BVHBuildNode::new_interior_node`):
no primitives, both children present, bounds the union of the children's. -/
def BVHBuildNode.new_interior_node (axis : Axis) (c0 c1 : BVHBuildNode) : BVHBuildNode :=
  .mk (c0.bounds.union c1.bounds) (some c0) (some c1) axis 0 0

/-- Truncating conversion to the `u32` range. -/
def u32 (n : ℕ) : Fin (2^32) := ⟨n % 2^32, Nat.mod_lt _ (by norm_num)⟩

/-- Truncating conversion to the `u16` range. -/
def u16 (n : ℕ) : Fin (2^16) := ⟨n % 2^16, Nat.mod_lt _ (by norm_num)⟩

/-- Truncating conversion to the `u8` range. -/
def u8 (n : ℕ) : Fin (2^8) := ⟨n % 2^8, Nat.mod_lt _ (by norm_num)⟩

/-- The `u8` index of an axis, as stored in a flattened node. -/
def Axis.toU8 : Axis → Fin (2^8)
  | Axis.X => u8 0
  | Axis.Y => u8 1
  | Axis.Z => u8 2

/-- A flattened BVH node (`LinearBVHNode`): `offset` is a `u32`
(primitive-array offset for leaves, second-child index for interior
nodes), `n_primitives` a `u16` (0 for interior), `axis` and `pad` are `u8`. -/
structure LinearBVHNode where
  bounds : Bounds3
  offset : Fin (2^32)
  n_primitives : Fin (2^16)
  axis : Fin (2^8)
  pad : Fin (2^8)
deriving DecidableEq

/-- Create a leaf linear BVH node (`LinearBVHNode::new_leaf_node`). -/
def LinearBVHNode.new_leaf_node (bounds : Bounds3) (offset : Fin (2^32))
    (n_primitives : Fin (2^16)) : LinearBVHNode :=
  { bounds := bounds, offset := offset, n_primitives := n_primitives, axis := u8 0, pad := u8 0 }

/-- Create an interior linear BVH node (`LinearBVHNode::new_interior_node`). -/
def LinearBVHNode.new_interior_node (bounds : Bounds3) (offset : Fin (2^32))
    (axis : Fin (2^8)) : LinearBVHNode :=
  { bounds := bounds, offset := offset, axis := axis, n_primitives := u16 0, pad := u8 0 }

/-- Modelled from the spec: an opaque bounded, intersectable collaborator
object (the `Primitive` trait of §6, whose implementations are not part of
the crate snapshot): a world-space bound and a closest-intersection
capability reporting the hit parameter `t` (the hit is opaque beyond `t`). -/
structure Primitive where
  world_bound : Bounds3
  intersectT : Ray → Option ℚ

/-- Union of a list of boxes; the empty list gives the invalid default box. -/
def unionBounds : List Bounds3 → Bounds3
  | [] => Bounds3.invalid
  | b :: bs => bs.foldl Bounds3.union b

/-- The degenerate box covering exactly one point. -/
def pointBox (p : Point3) : Bounds3 := ⟨p, p⟩

/-- Comparison of primitive infos by centroid coordinate along an axis. -/
def centroidLe (ax : Axis) (a b : BVHPrimitiveInfo) : Bool :=
  decide (a.centroid.axisCoord ax ≤ b.centroid.axisCoord ax)

/-- Modelled from the spec: the EqualCounts split (§4.2, missing builder
source): order the range by centroid coordinate along the chosen axis and
put the first half (`⌊k/2⌋` primitives, the ones with smallest centroid
coordinates) on the left and the rest on the right. -/
def equalCountsSplit (ax : Axis) (infos : List BVHPrimitiveInfo) :
    List BVHPrimitiveInfo × List BVHPrimitiveInfo :=
  ((infos.mergeSort (centroidLe ax)).take (infos.length / 2),
   (infos.mergeSort (centroidLe ax)).drop (infos.length / 2))

/-- Modelled from the spec: the Middle split (§4.2, missing builder source):
partition by centroid coordinate against the midpoint of the centroid
bounds along the axis; a degenerate partition falls back to EqualCounts. -/
def middleSplit (ax : Axis) (cb : Bounds3) (infos : List BVHPrimitiveInfo) :
    List BVHPrimitiveInfo × List BVHPrimitiveInfo :=
  let pmid := (cb.p_min.axisCoord ax + cb.p_max.axisCoord ax) / 2
  let l := infos.filter fun i => decide (i.centroid.axisCoord ax < pmid)
  let r := infos.filter fun i => !decide (i.centroid.axisCoord ax < pmid)
  if l.isEmpty || r.isEmpty then equalCountsSplit ax infos else (l, r)

/-- Number of SAH buckets (named configuration constant, default 12). -/
def nBuckets : ℕ := 12

/-- Modelled from the spec: the SAH bucket of a primitive info, from the
normalized centroid position along the axis (clamped to the last bucket). -/
def bucketOf (cb : Bounds3) (ax : Axis) (info : BVHPrimitiveInfo) : ℕ :=
  let b := (⌊(nBuckets : ℚ) * cb.offsetAlong ax (info.centroid.axisCoord ax)⌋).toNat
  if nBuckets ≤ b then nBuckets - 1 else b

/-- Surface area of an optional box, 0 when absent. -/
def surfaceAreaOpt : Option Bounds3 → ℚ
  | none => 0
  | some b => b.surfaceArea

/-- Union of a list of boxes as an `Option` (empty list gives `none`). -/
def unionBoundsOpt : List Bounds3 → Option Bounds3
  | [] => none
  | b :: bs => some (bs.foldl Bounds3.union b)

/-- Modelled from the spec: SAH cost of splitting after bucket `s`:
`traversal_cost + (left_count * left_area + right_count * right_area) /
total_area`. -/
def sahCost (cb : Bounds3) (ax : Axis) (bounds : Bounds3)
    (infos : List BVHPrimitiveInfo) (s : ℕ) : ℚ :=
  let l := infos.filter fun i => decide (bucketOf cb ax i ≤ s)
  let r := infos.filter fun i => !decide (bucketOf cb ax i ≤ s)
  (1/8 : ℚ) + ((l.length : ℚ) * surfaceAreaOpt (unionBoundsOpt (l.map BVHPrimitiveInfo.bounds))
    + (r.length : ℚ) * surfaceAreaOpt (unionBoundsOpt (r.map BVHPrimitiveInfo.bounds)))
    / bounds.surfaceArea

/-- First index below `count` minimizing `f` (the forward scan keeps the
first minimum, like the reference cost scan). -/
def argminCost (f : ℕ → ℚ) (count : ℕ) : ℕ :=
  (List.range count).foldl (fun best s => if f s < f best then s else best) 0

/-- Modelled from the spec: the SAH split decision (§4.2, missing builder
source).  Small ranges fall back to EqualCounts; otherwise the minimum-cost
bucket split is compared against the leaf cost, and `none` (make a leaf) is
returned when leafing is cheaper or the split would leave one side empty. -/
def sahSplit (maxPrims : ℕ) (cb : Bounds3) (ax : Axis) (bounds : Bounds3)
    (infos : List BVHPrimitiveInfo) :
    Option (List BVHPrimitiveInfo × List BVHPrimitiveInfo) :=
  if infos.length ≤ 2 then some (equalCountsSplit ax infos)
  else
    let minBucket := argminCost (sahCost cb ax bounds infos) (nBuckets - 1)
    let minCost := sahCost cb ax bounds infos minBucket
    let leafCost : ℚ := infos.length
    if maxPrims < infos.length ∨ minCost < leafCost then
      let l := infos.filter fun i => decide (bucketOf cb ax i ≤ minBucket)
      let r := infos.filter fun i => !decide (bucketOf cb ax i ≤ minBucket)
      if l.isEmpty || r.isEmpty then none else some (l, r)
    else none

/-- Modelled from the spec: dispatch of the split methods of §4.2.  The
HLBVH method never reaches the recursive splitter — the build entry point
routes it to the clustered builder of §4.3 (`hlbvhBuild` below) — so its
branch, kept only for totality, answers "make a leaf". -/
def splitFor (method : SplitMethod) (maxPrims : ℕ) (cb : Bounds3) (ax : Axis)
    (bounds : Bounds3) (infos : List BVHPrimitiveInfo) :
    Option (List BVHPrimitiveInfo × List BVHPrimitiveInfo) :=
  match method with
  | SplitMethod.EqualCounts => some (equalCountsSplit ax infos)
  | SplitMethod.Middle => some (middleSplit ax cb infos)
  | SplitMethod.SAH => sahSplit maxPrims cb ax bounds infos
  | SplitMethod.HLBVH => none

/-- Bounding box of a range of primitive infos. -/
def infosBounds (infos : List BVHPrimitiveInfo) : Bounds3 :=
  unionBounds (infos.map BVHPrimitiveInfo.bounds)

/-- Bounding box of the centroids of a range of primitive infos. -/
def infosCentroidBounds (infos : List BVHPrimitiveInfo) : Bounds3 :=
  unionBounds (infos.map fun i => pointBox i.centroid)

/-- The leaf emitted for a range: its first ordered index is `off`, its
count the range size, its bounds the union of the range's bounds; the
range's primitive numbers are appended to the ordered index array. -/
def leafFor (off : ℕ) (infos : List BVHPrimitiveInfo) : BVHBuildNode × List ℕ :=
  (BVHBuildNode.new_leaf_node off infos.length (infosBounds infos),
   infos.map BVHPrimitiveInfo.primitive_number)

/-- Modelled from the spec: the recursive builder (§4.2, missing from the
crate snapshot).  `off` is the number of ordered primitives emitted so far;
the result is the subtree root and the ordered primitive indices of the
range.  A range of size ≤ 1, degenerate centroid bounds, a leaf decision by
SAH, or a partition with an empty half (the defensive guard of §4.2/§7)
emits a leaf. -/
def buildRecursive (method : SplitMethod) (maxPrims : ℕ) (off : ℕ)
    (infos : List BVHPrimitiveInfo) : BVHBuildNode × List ℕ :=
  if infos.length ≤ 1 then leafFor off infos
  else
    let cb := infosCentroidBounds infos
    if cb.p_max = cb.p_min then leafFor off infos
    else
      match splitFor method maxPrims cb cb.maximumExtent (infosBounds infos) infos with
      | none => leafFor off infos
      | some (l, r) =>
        if hg : l.length = 0 ∨ r.length = 0 ∨ l.length + r.length ≠ infos.length then
          leafFor off infos
        else
          let p0 := buildRecursive method maxPrims off l
          let p1 := buildRecursive method maxPrims (off + l.length) r
          (BVHBuildNode.new_interior_node cb.maximumExtent p0.1 p1.1, p0.2 ++ p1.2)
termination_by infos.length
decreasing_by
  · push_neg at hg
    omega
  · push_neg at hg
    omega

/-- Width of a Morton code: 30 bits, 10 per axis (§4.3). -/
def mortonBits : ℕ := 30

/-- Width of the treelet mask: the top 12 Morton bits (§4.3, named
configuration constant, up to 4096 treelets). -/
def treeletMaskBits : ℕ := 12

/-- Modelled from the spec: one axis of the Morton quantization — the
centroid coordinate normalized into the unit cube of the overall centroid
bounds, scaled by `2^10` and clamped to a 10-bit integer. -/
def quantized (cb : Bounds3) (ax : Axis) (c : ℚ) : ℕ :=
  min (⌊(1024 : ℚ) * cb.offsetAlong ax c⌋).toNat 1023

/-- Modelled from the spec: the 30-bit interleaved Morton encoding of three
10-bit coordinates (`x` in bit 0, `y` in bit 1, `z` in bit 2 of each
triple). -/
def encodeMorton3 (x y z : ℕ) : ℕ :=
  (List.range 10).foldl (fun acc i =>
    acc + ((x / 2^i) % 2) * 2^(3*i) + ((y / 2^i) % 2) * 2^(3*i+1)
        + ((z / 2^i) % 2) * 2^(3*i+2)) 0

/-- Morton code of a primitive info (§4.3 step 1). -/
def mortonOf (cb : Bounds3) (info : BVHPrimitiveInfo) : ℕ :=
  encodeMorton3 (quantized cb Axis.X (info.centroid.axisCoord Axis.X))
    (quantized cb Axis.Y (info.centroid.axisCoord Axis.Y))
    (quantized cb Axis.Z (info.centroid.axisCoord Axis.Z))

/-- The axis a Morton bit index partitions along (`x` bits are 0 mod 3). -/
def axisOfBit (b : ℕ) : Axis :=
  if b % 3 = 0 then Axis.X else if b % 3 = 1 then Axis.Y else Axis.Z

/-- Modelled from the spec: the treelet build (§4.3 step 4): partition by
the next-unconsumed Morton bit downward (the bit value alone decides
left/right, no cost evaluation); a range of one primitive is a leaf, bit
exhaustion collapses the remaining primitives into one leaf, and a bit all
primitives share just moves to the next bit. -/
def emitLBVH (key : BVHPrimitiveInfo → ℕ) : ℕ → ℕ → List BVHPrimitiveInfo →
    BVHBuildNode × List ℕ
  | 0, off, infos => leafFor off infos
  | bit + 1, off, infos =>
    if infos.length ≤ 1 then leafFor off infos
    else
      let l := infos.filter fun i => decide ((key i / 2^bit) % 2 = 0)
      let r := infos.filter fun i => !decide ((key i / 2^bit) % 2 = 0)
      if l.isEmpty || r.isEmpty then
        emitLBVH key bit off infos
      else
        let p0 := emitLBVH key bit off l
        let p1 := emitLBVH key bit (off + l.length) r
        (BVHBuildNode.new_interior_node (axisOfBit bit) p0.1 p1.1, p0.2 ++ p1.2)

/-- Modelled from the spec: the treelet partition (§4.3 step 3): maximal
contiguous runs of the Morton-sorted sequence sharing the same high-order
key. -/
def treeletsOf (key : BVHPrimitiveInfo → ℕ) : List BVHPrimitiveInfo →
    List (List BVHPrimitiveInfo)
  | [] => []
  | a :: rest =>
    (a :: rest.takeWhile fun b => key b == key a)
      :: treeletsOf key (rest.dropWhile fun b => key b == key a)
termination_by l => l.length
decreasing_by
  have h2 : (rest.dropWhile fun b => key b == key a).length ≤ rest.length :=
    (List.dropWhile_sublist _).length_le
  simp only [List.length_cons]
  omega

/-- Modelled from the spec: build every treelet, each claiming the next
contiguous range of the ordered-primitive array (§4.3 step 4's disjoint
allocation), threading the running offset. -/
def emitTreelets (key : BVHPrimitiveInfo → ℕ) : ℕ → List (List BVHPrimitiveInfo) →
    List (BVHBuildNode × List ℕ)
  | _, [] => []
  | off, t :: ts =>
    let e := emitLBVH key (mortonBits - treeletMaskBits) off t
    e :: emitTreelets key (off + e.2.length) ts

/-- A treelet root viewed as a coarse primitive (§4.3 step 5): its bounds,
with the centroid the bounds midpoint. -/
def coarseInfo (rt : BVHBuildNode) : BVHPrimitiveInfo :=
  BVHPrimitiveInfo.new 0 rt.bounds

/-- The split axis of the top-level merge: the maximum extent of the
coarse-primitive centroid bounds. -/
def upperAxis (rts : List BVHBuildNode) : Axis :=
  (infosCentroidBounds (rts.map coarseInfo)).maximumExtent

/-- Modelled from the spec: one partition step of the top-level merge (§4.3
step 5): the §4.2 SAH bucket split over the treelet roots treated as coarse
primitives; a partition that would leave one side empty falls back to the
EqualCounts median split on the roots (the defensive guard of §4.2/§7 — a
leaf is not available here, so a split is forced instead). -/
def upperSplit (rts : List BVHBuildNode) : List BVHBuildNode × List BVHBuildNode :=
  let cinfos := rts.map coarseInfo
  let cb := infosCentroidBounds cinfos
  let ax := cb.maximumExtent
  let minBucket := argminCost (sahCost cb ax (infosBounds cinfos) cinfos) (nBuckets - 1)
  let l := rts.filter fun rt => decide (bucketOf cb ax (coarseInfo rt) ≤ minBucket)
  let r := rts.filter fun rt => !decide (bucketOf cb ax (coarseInfo rt) ≤ minBucket)
  if l.length = 0 ∨ r.length = 0 then
    let sorted := rts.mergeSort fun a b =>
      decide ((coarseInfo a).centroid.axisCoord ax ≤ (coarseInfo b).centroid.axisCoord ax)
    (sorted.take (rts.length / 2), sorted.drop (rts.length / 2))
  else (l, r)

/-- Modelled from the spec: the top-level merge (§4.3 step 5): the §4.2
recursive builder with the SAH split, run over the treelet roots treated as
coarse primitives.  A single root is returned as is.  `fuel` bounds the
recursion depth; callers pass the root count, which the correctness proof
shows is never exhausted. -/
def buildUpperSAH : ℕ → List BVHBuildNode → BVHBuildNode
  | _, [] => BVHBuildNode.new_leaf_node 0 0 Bounds3.invalid
  | _, [rt] => rt
  | 0, rt :: _ => rt
  | fuel + 1, r0 :: r1 :: rest =>
    BVHBuildNode.new_interior_node (upperAxis (r0 :: r1 :: rest))
      (buildUpperSAH fuel (upperSplit (r0 :: r1 :: rest)).1)
      (buildUpperSAH fuel (upperSplit (r0 :: r1 :: rest)).2)

/-- Stage 2 of the clustered builder (§4.3): the primitive infos sorted by
Morton code of their centroids. -/
def hlbvhSorted (infos : List BVHPrimitiveInfo) : List BVHPrimitiveInfo :=
  infos.mergeSort fun a b =>
    decide (mortonOf (infosCentroidBounds infos) a ≤ mortonOf (infosCentroidBounds infos) b)

/-- Stage 3 of the clustered builder (§4.3): the sorted sequence cut into
treelets by the high-order Morton mask. -/
def hlbvhTreelets (infos : List BVHPrimitiveInfo) : List (List BVHPrimitiveInfo) :=
  treeletsOf
    (fun i => mortonOf (infosCentroidBounds infos) i / 2^(mortonBits - treeletMaskBits))
    (hlbvhSorted infos)

/-- Stage 4 of the clustered builder (§4.3): every treelet built over its
contiguous range of the ordered-primitive array. -/
def hlbvhEmitted (infos : List BVHPrimitiveInfo) : List (BVHBuildNode × List ℕ) :=
  emitTreelets (mortonOf (infosCentroidBounds infos)) 0 (hlbvhTreelets infos)

/-- Modelled from the spec: the clustered builder (§4.3): Morton-code the
centroids, sort by code, split into treelets by the high-order mask, build
each treelet over consecutive ordered-array ranges, then merge the treelet
roots with the upper SAH builder (§4.3 step 5).  The ordered index array is
the concatenation of the treelet ranges and is not reordered by the merge. -/
def hlbvhBuild (infos : List BVHPrimitiveInfo) : BVHBuildNode × List ℕ :=
  (buildUpperSAH (hlbvhEmitted infos).length ((hlbvhEmitted infos).map Prod.fst),
   ((hlbvhEmitted infos).map Prod.snd).flatten)

/-- Number of nodes in a build tree. -/
def BVHBuildNode.size : BVHBuildNode → ℕ
  | .mk _ (some c0) (some c1) _ _ 0 => 1 + c0.size + c1.size
  | .mk _ _ _ _ _ _ => 1

/-- Modelled from the spec: the linearizer (§4.4, missing from the crate
snapshot): depth-first pre-order emission; the first child of an interior
node occupies the next slot and the parent's `offset` records the second
child's index; a leaf records its first ordered-primitive index and count
(truncated to the `u32`/`u16` fields of `LinearBVHNode`). -/
def flattenTree : BVHBuildNode → ℕ → List LinearBVHNode
  | .mk b (some c0) (some c1) ax _ 0, off =>
    LinearBVHNode.new_interior_node b (u32 (off + 1 + c0.size)) ax.toU8
      :: (flattenTree c0 (off + 1) ++ flattenTree c1 (off + 1 + c0.size))
  | .mk b _ _ _ first n, _ => [LinearBVHNode.new_leaf_node b (u32 first) (u16 n)]

/-- Component of a direction vector selected by a stored `u8` axis. -/
def dirComponent (d : Point3) (axis : Fin (2^8)) : ℚ :=
  if (axis : ℕ) = 0 then d.x else if (axis : ℕ) = 1 then d.y else d.z

/-- Modelled from the spec: one primitive test of the closest-hit query:
accept the hit only inside the current window `(0, t_max)`, then shrink
`t_max` to the hit parameter and remember the primitive index. -/
def primUpdate (prims : List Primitive) (r : Ray) (acc : ℚ × Option ℕ) (i : ℕ) :
    ℚ × Option ℕ :=
  match prims[i]? with
  | none => acc
  | some p =>
    match p.intersectT r with
    | none => acc
    | some t => if 0 < t ∧ t < acc.1 then (t, some i) else acc

/-- Modelled from the spec: the stack-based closest-hit traversal loop of
§4.5 over the flattened array, with an explicit fuel bound on the number of
iterations.  A popped node whose bounds fail the ray/window test is
discarded; a leaf folds the primitive tests of its range over the ordered
index array; an interior node pushes the far child below the near child
(by the direction sign along the stored axis). -/
def traverseLoop (nodes : List LinearBVHNode) (order : List ℕ) (prims : List Primitive)
    (r : Ray) : ℕ → List ℕ → ℚ × Option ℕ → ℚ × Option ℕ
  | 0, _, acc => acc
  | _ + 1, [], acc => acc
  | fuel + 1, i :: rest, acc =>
    match nodes[i]? with
    | none => traverseLoop nodes order prims r fuel rest acc
    | some nd =>
      if nd.bounds.rayHit r acc.1 then
        if 0 < (nd.n_primitives : ℕ) then
          traverseLoop nodes order prims r fuel rest
            (((order.drop (nd.offset : ℕ)).take (nd.n_primitives : ℕ)).foldl
              (primUpdate prims r) acc)
        else if dirComponent r.d nd.axis < 0 then
          traverseLoop nodes order prims r fuel ((nd.offset : ℕ) :: (i + 1) :: rest) acc
        else
          traverseLoop nodes order prims r fuel ((i + 1) :: (nd.offset : ℕ) :: rest) acc
      else traverseLoop nodes order prims r fuel rest acc

/-- Modelled from the spec: one primitive test of the any-hit query, with
the caller-supplied window `(0, t_max)` held fixed. -/
def primAnyHit (prims : List Primitive) (r : Ray) (t_max : ℚ) (i : ℕ) : Bool :=
  match prims[i]? with
  | none => false
  | some p =>
    match p.intersectT r with
    | none => false
    | some t => decide (0 < t ∧ t < t_max)

/-- Modelled from the spec: the stack-based any-hit traversal loop of §4.5:
identical traversal to the closest-hit loop, but it returns `true` on the
first primitive intersection found within the window and never shrinks
`t_max`. -/
def traverseLoopP (nodes : List LinearBVHNode) (order : List ℕ) (prims : List Primitive)
    (r : Ray) (t_max : ℚ) : ℕ → List ℕ → Bool
  | 0, _ => false
  | _ + 1, [] => false
  | fuel + 1, i :: rest =>
    match nodes[i]? with
    | none => traverseLoopP nodes order prims r t_max fuel rest
    | some nd =>
      if nd.bounds.rayHit r t_max then
        if 0 < (nd.n_primitives : ℕ) then
          if ((order.drop (nd.offset : ℕ)).take (nd.n_primitives : ℕ)).any
              (primAnyHit prims r t_max) then true
          else traverseLoopP nodes order prims r t_max fuel rest
        else if dirComponent r.d nd.axis < 0 then
          traverseLoopP nodes order prims r t_max fuel ((nd.offset : ℕ) :: (i + 1) :: rest)
        else
          traverseLoopP nodes order prims r t_max fuel ((i + 1) :: (nd.offset : ℕ) :: rest)
      else traverseLoopP nodes order prims r t_max fuel rest

/-- The built accelerator: its long-lived state is the primitive collection,
the ordered-primitive index array, and the flattened node array. -/
structure BVHAccel where
  primitives : List Primitive
  order : List ℕ
  nodes : List LinearBVHNode

/-- The primitive-info collector (§4.1): one info per input object, indexed
by position, with the object's world bound. -/
def infosOf (prims : List Primitive) : List BVHPrimitiveInfo :=
  prims.enum.map fun ip => BVHPrimitiveInfo.new ip.1 ip.2.world_bound

/-- The builder dispatch: the HLBVH method runs the clustered builder of
§4.3, every other method the recursive builder of §4.2. -/
def builtFor (method : SplitMethod) (maxPrims : ℕ) (infos : List BVHPrimitiveInfo) :
    BVHBuildNode × List ℕ :=
  if method = SplitMethod.HLBVH then hlbvhBuild infos
  else buildRecursive method maxPrims 0 infos

/-- Modelled from the spec: the build entry point (§6): collect primitive
infos, run the selected builder, flatten the tree.  An empty collection
yields the degenerate empty structure. -/
def BVHAccel.new (prims : List Primitive) (maxPrims : ℕ) (method : SplitMethod) : BVHAccel :=
  if prims.isEmpty then ⟨prims, [], []⟩
  else
    let built := builtFor method maxPrims (infosOf prims)
    ⟨prims, built.2, flattenTree built.1 0⟩

/-- Modelled from the spec: `world_bound()` returns the root node's bounds,
or the invalid default box for the empty structure. -/
def BVHAccel.world_bound (a : BVHAccel) : Bounds3 :=
  match a.nodes with
  | [] => Bounds3.invalid
  | nd :: _ => nd.bounds

/-- Modelled from the spec: the closest-hit query (§4.5): start from the
root with window `(0, t_max)` and report the best hit found, if any. -/
def BVHAccel.intersect (a : BVHAccel) (r : Ray) (t_max : ℚ) : Option (ℕ × ℚ) :=
  if a.nodes.isEmpty then none
  else
    match traverseLoop a.nodes a.order a.primitives r a.nodes.length [0] (t_max, none) with
    | (_, none) => none
    | (t, some i) => some (i, t)

/-- Modelled from the spec: the any-hit query (§4.5). -/
def BVHAccel.intersect_p (a : BVHAccel) (r : Ray) (t_max : ℚ) : Bool :=
  if a.nodes.isEmpty then false
  else traverseLoopP a.nodes a.order a.primitives r t_max a.nodes.length [0]

/-- The brute-force oracle: fold the primitive test over every index in
order, i.e. a linear scan over all primitives within `(0, t_max)`. -/
def linearScan (prims : List Primitive) (r : Ray) (t_max : ℚ) : Option (ℕ × ℚ) :=
  match (List.range prims.length).foldl (primUpdate prims r) (t_max, none) with
  | (_, none) => none
  | (t, some i) => some (i, t)

/-- Recursive reference form of the closest-hit traversal: the stack loop of
`traverseLoop` processes exactly the near subtree, then the far subtree, so
it is equivalent to this structural recursion over the build tree (proved
below). -/
def visitAcc (prims : List Primitive) (order : List ℕ) (r : Ray) :
    BVHBuildNode → ℚ × Option ℕ → ℚ × Option ℕ
  | .mk b (some c0) (some c1) ax _ 0, acc =>
    if b.rayHit r acc.1 then
      if dirComponent r.d ax.toU8 < 0 then
        visitAcc prims order r c0 (visitAcc prims order r c1 acc)
      else
        visitAcc prims order r c1 (visitAcc prims order r c0 acc)
    else acc
  | .mk b _ _ _ first n, acc =>
    if b.rayHit r acc.1 then ((order.drop first).take n).foldl (primUpdate prims r) acc
    else acc

/-- Recursive reference form of the any-hit traversal. -/
def visitP (prims : List Primitive) (order : List ℕ) (r : Ray) (t_max : ℚ) :
    BVHBuildNode → Bool
  | .mk b (some c0) (some c1) ax _ 0 =>
    if b.rayHit r t_max then
      if dirComponent r.d ax.toU8 < 0 then
        visitP prims order r t_max c1 || visitP prims order r t_max c0
      else
        visitP prims order r t_max c0 || visitP prims order r t_max c1
    else false
  | .mk b _ _ _ first n =>
    if b.rayHit r t_max then ((order.drop first).take n).any (primAnyHit prims r t_max)
    else false

/-- Primitive `i` is hit by ray `r` at positive parameter `t`. -/
def ValidHit (prims : List Primitive) (r : Ray) (i : ℕ) (t : ℚ) : Prop :=
  ∃ p, prims[i]? = some p ∧ p.intersectT r = some t ∧ 0 < t

/-- Postcondition of processing the primitive indices `S` against a running
closest-hit accumulator (current window end, best index): the window never
grows; the accumulator is unchanged or holds a valid hit from `S` at the
new window end; and no valid hit of `S` inside the original window beats
the result. -/
def PostAcc (prims : List Primitive) (r : Ray) (S : List ℕ)
    (a b : ℚ × Option ℕ) : Prop :=
  b.1 ≤ a.1 ∧
  (b = a ∨ ∃ i ∈ S, ValidHit prims r i b.1 ∧ b.2 = some i ∧ b.1 < a.1) ∧
  ∀ i ∈ S, ∀ u, ValidHit prims r i u → u < a.1 → b.1 ≤ u

/-- Structural well-formedness of a build subtree relative to the primitive
collection: the node sits at ordered-array offset `off` and owns the index
segment `seg`; leaves own at least one primitive whose bounds are inside
the leaf bounds; interior bounds are the union of the children's. -/
inductive TreeOK (prims : List Primitive) : BVHBuildNode → ℕ → List ℕ → Prop where
  | leaf (b : Bounds3) (ax : Axis) (off : ℕ) (seg : List ℕ)
      (hb : ∀ i ∈ seg, ∃ p, prims[i]? = some p ∧ p.world_bound.subsetOf b)
      (hn : 1 ≤ seg.length) :
      TreeOK prims (.mk b none none ax off seg.length) off seg
  | interior (b : Bounds3) (ax : Axis) (c0 c1 : BVHBuildNode) (off : ℕ)
      (seg0 seg1 : List ℕ)
      (h0 : TreeOK prims c0 off seg0)
      (h1 : TreeOK prims c1 (off + seg0.length) seg1)
      (hb : b = c0.bounds.union c1.bounds) :
      TreeOK prims (.mk b (some c0) (some c1) ax 0 0) off (seg0 ++ seg1)

/-- Structural well-formedness of a build subtree relative to the primitive
collection and the final ordered index array, without the assumption that
leaf ranges appear in tree order (the clustered builder's top-level merge
arranges treelet roots freely over their already-assigned ranges): a leaf's
stored offset slices its index segment out of the ordered array; interior
bounds are the union of the children's; the subtree's segment is the
concatenation of the children's. -/
inductive TreeO (prims : List Primitive) (order : List ℕ) : BVHBuildNode → List ℕ → Prop where
  | leaf (b : Bounds3) (ax : Axis) (f : ℕ) (seg : List ℕ)
      (hb : ∀ i ∈ seg, ∃ p, prims[i]? = some p ∧ p.world_bound.subsetOf b)
      (hn : 1 ≤ seg.length)
      (hslice : (order.drop f).take seg.length = seg) :
      TreeO prims order (.mk b none none ax f seg.length) seg
  | interior (b : Bounds3) (ax : Axis) (c0 c1 : BVHBuildNode) (seg0 seg1 : List ℕ)
      (h0 : TreeO prims order c0 seg0)
      (h1 : TreeO prims order c1 seg1)
      (hb : b = c0.bounds.union c1.bounds) :
      TreeO prims order (.mk b (some c0) (some c1) ax 0 0) (seg0 ++ seg1)

/-- The index segment a subtree owns, read back from its nodes and the
ordered array. -/
def segOf (order : List ℕ) : BVHBuildNode → List ℕ
  | .mk _ (some c0) (some c1) _ _ 0 => segOf order c0 ++ segOf order c1
  | .mk _ _ _ _ f n => (order.drop f).take n

/-- The numeric fields of the subtree flattened at array index `idx` fit
their machine widths without truncation, and every leaf holds at least one
primitive (so the leaf/interior discrimination by count is sound). -/
def GoodAt : BVHBuildNode → ℕ → Prop
  | .mk _ (some c0) (some c1) _ _ 0, idx =>
    idx + 1 + c0.size < 2^32 ∧ GoodAt c0 (idx + 1) ∧ GoodAt c1 (idx + 1 + c0.size)
  | .mk _ _ _ _ first n, _ => first < 2^32 ∧ 1 ≤ n ∧ n < 2^16

/-- The flattened array `arr` holds the flattening of `nd` starting at
array index `idx`. -/
def SliceAt (arr : List LinearBVHNode) (idx : ℕ) (nd : BVHBuildNode) : Prop :=
  ∀ j, j < nd.size → arr[idx + j]? = (flattenTree nd idx)[j]?

/-- The leaf ranges (primitive-array offset, count) of a flattened array,
in array order. -/
def leafRanges (nodes : List LinearBVHNode) : List (ℕ × ℕ) :=
  nodes.filterMap fun nd =>
    if 0 < (nd.n_primitives : ℕ) then some ((nd.offset : ℕ), (nd.n_primitives : ℕ)) else none

/-- The ordered-array positions covered by a list of leaf ranges, in order. -/
def coveredPositions (rs : List (ℕ × ℕ)) : List ℕ :=
  rs.flatMap fun oc => (List.range oc.2).map (oc.1 + ·)

/-- A unit cube centered at `(cx, 0, 0)` (from the concrete scenario of §8). -/
def demoBox (cx : ℚ) : Bounds3 :=
  ⟨⟨cx - 1/2, -1/2, -1/2⟩, ⟨cx + 1/2, 1/2, 1/2⟩⟩

/-- A demo primitive that reports a hit at `t = 1/2` for every ray. -/
def demoPrimHit : Primitive :=
  { world_bound := demoBox 0, intersectT := fun _ => some (1/2) }

/-- A demo primitive that never reports a hit. -/
def demoPrimMiss (cx : ℚ) : Primitive :=
  { world_bound := demoBox cx, intersectT := fun _ => none }

/-- A three-cube demo scene, after the concrete scenario of §8. -/
def demoScene : List Primitive := [demoPrimHit, demoPrimMiss 5, demoPrimMiss 10]

/-- The §8 demo ray from `(-1, 0, 0)` along `+x`. -/
def demoRay : Ray := ⟨⟨-1, 0, 0⟩, ⟨1, 0, 0⟩⟩

end PbrBVH

/-! ### Theorems -/

namespace PbrBVH

theorem subsetOf_refl (b : Bounds3) : b.subsetOf b := by
  unfold Bounds3.subsetOf
  and_intros <;> exact le_refl _

theorem subsetOf_trans {a b c : Bounds3} (h1 : a.subsetOf b) (h2 : b.subsetOf c) :
    a.subsetOf c := by
  unfold Bounds3.subsetOf at *
  obtain ⟨x1, x2, y1, y2, z1, z2⟩ := h1
  obtain ⟨x1', x2', y1', y2', z1', z2'⟩ := h2
  and_intros <;> linarith

theorem subset_union_left (b1 b2 : Bounds3) : b1.subsetOf (b1.union b2) := by
  unfold Bounds3.subsetOf Bounds3.union
  and_intros <;> simp

theorem subset_union_right (b1 b2 : Bounds3) : b2.subsetOf (b1.union b2) := by
  unfold Bounds3.subsetOf Bounds3.union
  and_intros <;> simp

theorem containsPoint_mono {b1 b2 : Bounds3} {p : Point3} (hs : b1.subsetOf b2)
    (hc : b1.containsPoint p) : b2.containsPoint p := by
  unfold Bounds3.subsetOf at hs
  unfold Bounds3.containsPoint at *
  obtain ⟨x1, x2, y1, y2, z1, z2⟩ := hs
  obtain ⟨a1, a2, c1, c2, e1, e2⟩ := hc
  and_intros <;> linarith

theorem acc_subset_foldl_union (bs : List Bounds3) : ∀ (acc : Bounds3),
    acc.subsetOf (bs.foldl Bounds3.union acc) := by
  induction bs with
  | nil => exact fun acc => subsetOf_refl acc
  | cons b bs ih =>
    intro acc
    exact subsetOf_trans (subset_union_left acc b) (ih (acc.union b))

theorem mem_subset_foldl_union (bs : List Bounds3) : ∀ (acc b : Bounds3),
    b ∈ bs → b.subsetOf (bs.foldl Bounds3.union acc) := by
  induction bs with
  | nil => exact fun acc b hb => absurd hb (List.not_mem_nil b)
  | cons c cs ih =>
    intro acc b hb
    rcases List.mem_cons.mp hb with h | h
    · subst h
      exact subsetOf_trans (subset_union_right acc b) (acc_subset_foldl_union cs (acc.union b))
    · exact ih (acc.union c) b h

theorem mem_subset_unionBounds {bs : List Bounds3} {b : Bounds3} (hb : b ∈ bs) :
    b.subsetOf (unionBounds bs) := by
  cases bs with
  | nil => cases hb
  | cons c cs =>
    rcases List.mem_cons.mp hb with h | h
    · subst h
      exact acc_subset_foldl_union cs b
    · exact mem_subset_foldl_union cs c b h

theorem slabClip_window {o d lo hi t : ℚ} (h1 : lo ≤ o + t * d) (h2 : o + t * d ≤ hi)
    {w : Option (ℚ × ℚ)} (hw : ∃ t0 t1, w = some (t0, t1) ∧ t0 ≤ t ∧ t ≤ t1) :
    ∃ t0 t1, slabClip o d lo hi w = some (t0, t1) ∧ t0 ≤ t ∧ t ≤ t1 := by
  obtain ⟨t0, t1, rfl, ha, hb⟩ := hw
  by_cases hd : d = 0
  · subst hd
    rw [mul_zero, add_zero] at h1 h2
    refine ⟨t0, t1, ?_, ha, hb⟩
    simp [slabClip, if_pos (And.intro h1 h2)]
  · have hmem : min ((lo - o) / d) ((hi - o) / d) ≤ t ∧ t ≤ max ((lo - o) / d) ((hi - o) / d) := by
      rcases lt_or_gt_of_ne hd with hneg | hpos
      · constructor
        · refine le_trans (min_le_right _ _) ?_
          rw [div_le_iff_of_neg hneg]
          linarith
        · refine le_trans ?_ (le_max_left _ _)
          rw [le_div_iff_of_neg hneg]
          linarith
      · constructor
        · refine le_trans (min_le_left _ _) ?_
          rw [div_le_iff₀ hpos]
          linarith
        · refine le_trans ?_ (le_max_right _ _)
          rw [le_div_iff₀ hpos]
          linarith
    refine ⟨max t0 (min ((lo - o) / d) ((hi - o) / d)),
            min t1 (max ((lo - o) / d) ((hi - o) / d)), ?_, ?_, ?_⟩
    · have hcond : max t0 (min ((lo - o) / d) ((hi - o) / d))
          ≤ min t1 (max ((lo - o) / d) ((hi - o) / d)) := by
        refine le_trans (max_le ha hmem.1) (le_min hb hmem.2)
      simp only [slabClip, if_neg hd]
      rw [if_pos hcond]
    · exact max_le ha hmem.1
    · exact le_min hb hmem.2

theorem rayHit_of_containsPoint {b : Bounds3} {r : Ray} {t t_max : ℚ}
    (h0 : 0 ≤ t) (h1 : t ≤ t_max) (hc : b.containsPoint (r.at t)) :
    b.rayHit r t_max = true := by
  obtain ⟨x1, x2, y1, y2, z1, z2⟩ := hc
  simp only [Ray.at] at x1 x2 y1 y2 z1 z2
  have w0 : ∃ t0 t1, (some (0, t_max) : Option (ℚ × ℚ)) = some (t0, t1) ∧ t0 ≤ t ∧ t ≤ t1 :=
    ⟨0, t_max, rfl, h0, h1⟩
  have wx := slabClip_window x1 x2 w0
  have wy := slabClip_window y1 y2 wx
  have wz := slabClip_window z1 z2 wy
  obtain ⟨t0, t1, hz, -, -⟩ := wz
  unfold Bounds3.rayHit
  rw [hz]
  rfl

theorem equalCountsSplit_perm (ax : Axis) (infos : List BVHPrimitiveInfo) :
    ((equalCountsSplit ax infos).1 ++ (equalCountsSplit ax infos).2).Perm infos := by
  unfold equalCountsSplit
  rw [List.take_append_drop]
  exact List.mergeSort_perm infos _

theorem middleSplit_perm (ax : Axis) (cb : Bounds3) (infos : List BVHPrimitiveInfo) :
    ((middleSplit ax cb infos).1 ++ (middleSplit ax cb infos).2).Perm infos := by
  unfold middleSplit
  dsimp only
  split
  · exact equalCountsSplit_perm ax infos
  · exact List.filter_append_perm _ infos

theorem sahSplit_perm (mp : ℕ) (cb : Bounds3) (ax : Axis) (bounds : Bounds3)
    (infos : List BVHPrimitiveInfo) (l r : List BVHPrimitiveInfo)
    (h : sahSplit mp cb ax bounds infos = some (l, r)) : (l ++ r).Perm infos := by
  unfold sahSplit at h
  dsimp only at h
  split at h
  · simp only [Option.some.injEq] at h
    have hp := equalCountsSplit_perm ax infos
    rw [h] at hp
    simpa using hp
  · split at h
    · split at h
      · cases h
      · simp only [Option.some.injEq, Prod.mk.injEq] at h
        obtain ⟨h1, h2⟩ := h
        subst h1
        subst h2
        exact List.filter_append_perm _ infos
    · cases h

theorem splitFor_perm (method : SplitMethod) (mp : ℕ) (cb : Bounds3) (ax : Axis)
    (bounds : Bounds3) (infos : List BVHPrimitiveInfo) (l r : List BVHPrimitiveInfo)
    (h : splitFor method mp cb ax bounds infos = some (l, r)) : (l ++ r).Perm infos := by
  cases method with
  | SAH => exact sahSplit_perm mp cb ax bounds infos l r h
  | HLBVH => exact absurd h (by simp [splitFor])
  | Middle =>
    simp only [splitFor, Option.some.injEq] at h
    have hp := middleSplit_perm ax cb infos
    rw [h] at hp
    simpa using hp
  | EqualCounts =>
    simp only [splitFor, Option.some.injEq] at h
    have hp := equalCountsSplit_perm ax infos
    rw [h] at hp
    simpa using hp

theorem buildRecursive_eq_leaf1 (method : SplitMethod) (mp off : ℕ)
    (infos : List BVHPrimitiveInfo) (h : infos.length ≤ 1) :
    buildRecursive method mp off infos = leafFor off infos := by
  rw [buildRecursive, if_pos h]

theorem buildRecursive_eq_leaf2 (method : SplitMethod) (mp off : ℕ)
    (infos : List BVHPrimitiveInfo) (h1 : ¬ infos.length ≤ 1)
    (h2 : (infosCentroidBounds infos).p_max = (infosCentroidBounds infos).p_min) :
    buildRecursive method mp off infos = leafFor off infos := by
  rw [buildRecursive, if_neg h1]
  dsimp only
  rw [if_pos h2]

theorem buildRecursive_eq_leaf3 (method : SplitMethod) (mp off : ℕ)
    (infos : List BVHPrimitiveInfo) (h1 : ¬ infos.length ≤ 1)
    (h2 : ¬ (infosCentroidBounds infos).p_max = (infosCentroidBounds infos).p_min)
    (h3 : splitFor method mp (infosCentroidBounds infos)
        (infosCentroidBounds infos).maximumExtent (infosBounds infos) infos = none) :
    buildRecursive method mp off infos = leafFor off infos := by
  rw [buildRecursive, if_neg h1]
  dsimp only
  rw [if_neg h2, h3]

theorem buildRecursive_eq_leaf4 (method : SplitMethod) (mp off : ℕ)
    (infos l r : List BVHPrimitiveInfo) (h1 : ¬ infos.length ≤ 1)
    (h2 : ¬ (infosCentroidBounds infos).p_max = (infosCentroidBounds infos).p_min)
    (h3 : splitFor method mp (infosCentroidBounds infos)
        (infosCentroidBounds infos).maximumExtent (infosBounds infos) infos = some (l, r))
    (h4 : l.length = 0 ∨ r.length = 0 ∨ l.length + r.length ≠ infos.length) :
    buildRecursive method mp off infos = leafFor off infos := by
  rw [buildRecursive, if_neg h1]
  dsimp only
  rw [if_neg h2, h3]
  dsimp only
  rw [dif_pos h4]

theorem buildRecursive_eq_node (method : SplitMethod) (mp off : ℕ)
    (infos l r : List BVHPrimitiveInfo) (h1 : ¬ infos.length ≤ 1)
    (h2 : ¬ (infosCentroidBounds infos).p_max = (infosCentroidBounds infos).p_min)
    (h3 : splitFor method mp (infosCentroidBounds infos)
        (infosCentroidBounds infos).maximumExtent (infosBounds infos) infos = some (l, r))
    (h4 : ¬ (l.length = 0 ∨ r.length = 0 ∨ l.length + r.length ≠ infos.length)) :
    buildRecursive method mp off infos =
      (BVHBuildNode.new_interior_node (infosCentroidBounds infos).maximumExtent
        (buildRecursive method mp off l).1 (buildRecursive method mp (off + l.length) r).1,
       (buildRecursive method mp off l).2 ++ (buildRecursive method mp (off + l.length) r).2) := by
  rw [buildRecursive, if_neg h1]
  dsimp only
  rw [if_neg h2, h3]
  dsimp only
  rw [dif_neg h4]

theorem leafFor_ok (prims : List Primitive) (infos : List BVHPrimitiveInfo) (off : ℕ)
    (hne : infos ≠ [])
    (hinfo : ∀ info ∈ infos, ∃ p, prims[info.primitive_number]? = some p
      ∧ info.bounds = p.world_bound) :
    TreeOK prims (leafFor off infos).1 off (leafFor off infos).2 := by
  unfold leafFor
  dsimp only
  have hlen : infos.length = (infos.map BVHPrimitiveInfo.primitive_number).length :=
    (List.length_map _ _).symm
  rw [BVHBuildNode.new_leaf_node, hlen]
  refine TreeOK.leaf _ _ _ _ ?_ ?_
  · intro i hi
    obtain ⟨info, hmem, rfl⟩ := List.mem_map.mp hi
    obtain ⟨p, hp, hbe⟩ := hinfo info hmem
    refine ⟨p, hp, ?_⟩
    rw [← hbe]
    exact mem_subset_unionBounds (List.mem_map_of_mem _ hmem)
  · rw [← hlen]
    exact Nat.one_le_iff_ne_zero.mpr (fun h => hne (List.length_eq_zero.mp h))

theorem buildRecursive_spec (method : SplitMethod) (maxPrims : ℕ) (prims : List Primitive) :
    ∀ (n : ℕ) (infos : List BVHPrimitiveInfo), infos.length ≤ n → infos ≠ [] →
    (∀ info ∈ infos, ∃ p, prims[info.primitive_number]? = some p
      ∧ info.bounds = p.world_bound) →
    ∀ (off : ℕ),
      TreeOK prims (buildRecursive method maxPrims off infos).1 off
        (buildRecursive method maxPrims off infos).2
      ∧ ((buildRecursive method maxPrims off infos).2).Perm
          (infos.map BVHPrimitiveInfo.primitive_number) := by
  intro n
  induction n with
  | zero =>
    intro infos hlen hne _ _
    exact absurd (List.length_eq_zero.mp (Nat.le_zero.mp hlen)) hne
  | succ n ih =>
    intro infos hlen hne hinfo off
    by_cases h1 : infos.length ≤ 1
    · rw [buildRecursive_eq_leaf1 method maxPrims off infos h1]
      exact ⟨leafFor_ok prims infos off hne hinfo, by simp [leafFor]⟩
    by_cases h2 : (infosCentroidBounds infos).p_max = (infosCentroidBounds infos).p_min
    · rw [buildRecursive_eq_leaf2 method maxPrims off infos h1 h2]
      exact ⟨leafFor_ok prims infos off hne hinfo, by simp [leafFor]⟩
    rcases h3 : splitFor method maxPrims (infosCentroidBounds infos)
        (infosCentroidBounds infos).maximumExtent (infosBounds infos) infos with _ | ⟨l, r⟩
    · rw [buildRecursive_eq_leaf3 method maxPrims off infos h1 h2 h3]
      exact ⟨leafFor_ok prims infos off hne hinfo, by simp [leafFor]⟩
    by_cases h4 : l.length = 0 ∨ r.length = 0 ∨ l.length + r.length ≠ infos.length
    · rw [buildRecursive_eq_leaf4 method maxPrims off infos l r h1 h2 h3 h4]
      exact ⟨leafFor_ok prims infos off hne hinfo, by simp [leafFor]⟩
    rw [buildRecursive_eq_node method maxPrims off infos l r h1 h2 h3 h4]
    push_neg at h4
    obtain ⟨hl0, hr0, hsum⟩ := h4
    have hperm := splitFor_perm method maxPrims (infosCentroidBounds infos)
      (infosCentroidBounds infos).maximumExtent (infosBounds infos) infos l r h3
    have hmeml : ∀ info ∈ l, info ∈ infos := fun info hi =>
      hperm.mem_iff.mp (List.mem_append.mpr (Or.inl hi))
    have hmemr : ∀ info ∈ r, info ∈ infos := fun info hi =>
      hperm.mem_iff.mp (List.mem_append.mpr (Or.inr hi))
    have hlenl : l.length ≤ n := by omega
    have hlenr : r.length ≤ n := by omega
    have hnel : l ≠ [] := fun h => hl0 (by simp [h])
    have hner : r ≠ [] := fun h => hr0 (by simp [h])
    have ihl := ih l hlenl hnel (fun info hi => hinfo info (hmeml info hi)) off
    have ihr := ih r hlenr hner (fun info hi => hinfo info (hmemr info hi)) (off + l.length)
    have hseg0len : (buildRecursive method maxPrims off l).2.length = l.length :=
      ihl.2.length_eq.trans (List.length_map _ _)
    constructor
    · rw [BVHBuildNode.new_interior_node]
      refine TreeOK.interior _ _ _ _ _ _ _ ihl.1 ?_ rfl
      rw [hseg0len]
      exact ihr.1
    · refine (ihl.2.append ihr.2).trans ?_
      rw [← List.map_append]
      exact hperm.map _

theorem size_interior (b : Bounds3) (c0 c1 : BVHBuildNode) (ax : Axis) (f : ℕ) :
    (BVHBuildNode.mk b (some c0) (some c1) ax f 0).size = 1 + c0.size + c1.size := rfl

theorem size_pos (nd : BVHBuildNode) : 1 ≤ nd.size := by
  rcases nd with ⟨b, c0, c1, ax, f, n⟩
  rcases c0 with _ | c0 <;> rcases c1 with _ | c1 <;> rcases n with _ | n <;>
    simp [BVHBuildNode.size] <;> omega

theorem TreeOK.seg_pos {prims : List Primitive} {nd : BVHBuildNode} {off : ℕ} {seg : List ℕ}
    (h : TreeOK prims nd off seg) : 1 ≤ seg.length := by
  induction h with
  | leaf b ax off seg hb hn => exact hn
  | interior b ax c0 c1 off seg0 seg1 h0 h1 hb ih0 ih1 =>
    simp only [List.length_append]
    omega

theorem TreeOK.bounds_sub {prims : List Primitive} {nd : BVHBuildNode} {off : ℕ} {seg : List ℕ}
    (h : TreeOK prims nd off seg) :
    ∀ i ∈ seg, ∃ p, prims[i]? = some p ∧ p.world_bound.subsetOf nd.bounds := by
  induction h with
  | leaf b ax off seg hb hn => exact hb
  | interior b ax c0 c1 off seg0 seg1 h0 h1 hb ih0 ih1 =>
    intro i hi
    rcases List.mem_append.mp hi with hm | hm
    · obtain ⟨p, hp, hs⟩ := ih0 i hm
      refine ⟨p, hp, ?_⟩
      show p.world_bound.subsetOf b
      rw [hb]
      exact subsetOf_trans hs (subset_union_left _ _)
    · obtain ⟨p, hp, hs⟩ := ih1 i hm
      refine ⟨p, hp, ?_⟩
      show p.world_bound.subsetOf b
      rw [hb]
      exact subsetOf_trans hs (subset_union_right _ _)

theorem TreeOK.size_bound {prims : List Primitive} {nd : BVHBuildNode} {off : ℕ} {seg : List ℕ}
    (h : TreeOK prims nd off seg) : nd.size ≤ 2 * seg.length - 1 := by
  induction h with
  | leaf b ax off seg hb hn =>
    have : (BVHBuildNode.mk b none none ax off seg.length).size = 1 := rfl
    omega
  | interior b ax c0 c1 off seg0 seg1 h0 h1 hb ih0 ih1 =>
    have hs := size_interior b c0 c1 ax 0
    have s0 := h0.seg_pos
    have s1 := h1.seg_pos
    simp only [List.length_append]
    omega

theorem TreeOK.goodAt {prims : List Primitive} {nd : BVHBuildNode} {off : ℕ} {seg : List ℕ}
    (h : TreeOK prims nd off seg) :
    ∀ (idx P M : ℕ), off + seg.length ≤ P → P < 2^16 → idx + nd.size ≤ M → M < 2^32 →
      GoodAt nd idx := by
  induction h with
  | leaf b ax off seg hb hn =>
    intro idx P M h1 h2 h3 h4
    simp only [GoodAt]
    refine ⟨?_, hn, ?_⟩ <;> omega
  | interior b ax c0 c1 off seg0 seg1 h0 h1 hb ih0 ih1 =>
    intro idx P M hp1 hp2 hm1 hm2
    have hm1' : idx + (1 + c0.size + c1.size) ≤ M := by
      rw [← size_interior b c0 c1 ax 0]
      exact hm1
    have s1p := size_pos c1
    have s0p := size_pos c0
    have hl : (seg0 ++ seg1).length = seg0.length + seg1.length := List.length_append _ _
    simp only [GoodAt]
    refine ⟨by omega, ih0 (idx + 1) P M (by omega) hp2 (by omega) hm2,
      ih1 (idx + 1 + c0.size) P M (by omega) hp2 (by omega) hm2⟩

theorem flattenTree_interior (b : Bounds3) (c0 c1 : BVHBuildNode) (ax : Axis) (f off : ℕ) :
    flattenTree (.mk b (some c0) (some c1) ax f 0) off =
      LinearBVHNode.new_interior_node b (u32 (off + 1 + c0.size)) ax.toU8
        :: (flattenTree c0 (off + 1) ++ flattenTree c1 (off + 1 + c0.size)) := rfl

theorem flattenTree_leaf (b : Bounds3) (ax : Axis) (f n off : ℕ) :
    flattenTree (.mk b none none ax f n) off =
      [LinearBVHNode.new_leaf_node b (u32 f) (u16 n)] := rfl

theorem flattenTree_length_aux (m : ℕ) : ∀ (nd : BVHBuildNode), nd.size ≤ m →
    ∀ (off : ℕ), (flattenTree nd off).length = nd.size := by
  induction m with
  | zero =>
    intro nd h
    have := size_pos nd
    omega
  | succ m ih =>
    intro nd hle off
    rcases nd with ⟨b, c0, c1, ax, f, k⟩
    rcases c0 with _ | c0 <;> rcases c1 with _ | c1 <;> rcases k with _ | k <;>
      try (simp [flattenTree, BVHBuildNode.size]; done)
    have hs := size_interior b c0 c1 ax f
    have s0p := size_pos c0
    have s1p := size_pos c1
    rw [flattenTree_interior, hs]
    simp only [List.length_cons, List.length_append]
    rw [ih c0 (by omega) (off + 1), ih c1 (by omega) (off + 1 + c0.size)]
    omega

theorem flattenTree_length (nd : BVHBuildNode) (off : ℕ) :
    (flattenTree nd off).length = nd.size :=
  flattenTree_length_aux nd.size nd (le_refl _) off

theorem sliceAt_self (nd : BVHBuildNode) : SliceAt (flattenTree nd 0) 0 nd := by
  intro j hj
  simp

theorem sliceAt_head {arr : List LinearBVHNode} {idx : ℕ} {nd : BVHBuildNode}
    (h : SliceAt arr idx nd) : arr[idx]? = (flattenTree nd idx)[0]? := by
  have := h 0 (size_pos nd)
  simpa using this

theorem sliceAt_child0 {arr : List LinearBVHNode} {idx : ℕ} {b : Bounds3}
    {c0 c1 : BVHBuildNode} {ax : Axis} {f : ℕ}
    (h : SliceAt arr idx (.mk b (some c0) (some c1) ax f 0)) :
    SliceAt arr (idx + 1) c0 := by
  intro j hj
  have hj' : 1 + j < (BVHBuildNode.mk b (some c0) (some c1) ax f 0).size := by
    rw [size_interior]
    have := size_pos c1
    omega
  have hp := h (1 + j) hj'
  rw [flattenTree_interior] at hp
  have h1 : idx + (1 + j) = idx + 1 + j := by omega
  rw [h1] at hp
  have h2 : (1 + j) = j + 1 := by omega
  rw [h2, List.getElem?_cons_succ] at hp
  rw [List.getElem?_append_left (by rw [flattenTree_length]; exact hj)] at hp
  exact hp

theorem sliceAt_child1 {arr : List LinearBVHNode} {idx : ℕ} {b : Bounds3}
    {c0 c1 : BVHBuildNode} {ax : Axis} {f : ℕ}
    (h : SliceAt arr idx (.mk b (some c0) (some c1) ax f 0)) :
    SliceAt arr (idx + 1 + c0.size) c1 := by
  intro j hj
  have hj' : 1 + c0.size + j < (BVHBuildNode.mk b (some c0) (some c1) ax f 0).size := by
    rw [size_interior]
    omega
  have hp := h (1 + c0.size + j) hj'
  rw [flattenTree_interior] at hp
  have h1 : idx + (1 + c0.size + j) = idx + 1 + c0.size + j := by omega
  rw [h1] at hp
  have h2 : (1 + c0.size + j) = (c0.size + j) + 1 := by omega
  rw [h2, List.getElem?_cons_succ] at hp
  rw [List.getElem?_append_right (by rw [flattenTree_length]; omega)] at hp
  rw [flattenTree_length] at hp
  have h3 : c0.size + j - c0.size = j := by omega
  rw [h3] at hp
  exact hp

theorem slice_split_left {order seg0 seg1 : List ℕ} {off : ℕ}
    (h : (order.drop off).take (seg0 ++ seg1).length = seg0 ++ seg1) :
    (order.drop off).take seg0.length = seg0 := by
  have h1 : ((order.drop off).take (seg0 ++ seg1).length).take seg0.length
      = (seg0 ++ seg1).take seg0.length := by rw [h]
  rw [List.take_take, List.take_left] at h1
  have hmin : seg0.length ⊓ (seg0 ++ seg1).length = seg0.length := by
    simp [List.length_append]
  rw [hmin] at h1
  exact h1

theorem slice_split_right {order seg0 seg1 : List ℕ} {off : ℕ}
    (h : (order.drop off).take (seg0 ++ seg1).length = seg0 ++ seg1) :
    (order.drop (off + seg0.length)).take seg1.length = seg1 := by
  have e1 : order.drop (off + seg0.length) = (order.drop off).drop seg0.length := by
    rw [List.drop_drop]
  rw [e1]
  have e2 : ((order.drop off).drop seg0.length).take seg1.length
      = ((order.drop off).take (seg0.length + seg1.length)).drop seg0.length := by
    rw [List.drop_take]
    congr 1
    omega
  rw [e2]
  rw [List.length_append] at h
  rw [h, List.drop_left]

theorem TreeO.segPos {prims : List Primitive} {order : List ℕ} {nd : BVHBuildNode}
    {seg : List ℕ} (h : TreeO prims order nd seg) : 1 ≤ seg.length := by
  induction h with
  | leaf b ax f seg hb hn hslice => exact hn
  | interior b ax c0 c1 seg0 seg1 h0 h1 hb ih0 ih1 =>
    simp only [List.length_append]
    omega

theorem TreeO.boundsSub {prims : List Primitive} {order : List ℕ} {nd : BVHBuildNode}
    {seg : List ℕ} (h : TreeO prims order nd seg) :
    ∀ i ∈ seg, ∃ p, prims[i]? = some p ∧ p.world_bound.subsetOf nd.bounds := by
  induction h with
  | leaf b ax f seg hb hn hslice => exact hb
  | interior b ax c0 c1 seg0 seg1 h0 h1 hb ih0 ih1 =>
    intro i hi
    rcases List.mem_append.mp hi with hm | hm
    · obtain ⟨p, hp, hs⟩ := ih0 i hm
      refine ⟨p, hp, ?_⟩
      show p.world_bound.subsetOf b
      rw [hb]
      exact subsetOf_trans hs (subset_union_left _ _)
    · obtain ⟨p, hp, hs⟩ := ih1 i hm
      refine ⟨p, hp, ?_⟩
      show p.world_bound.subsetOf b
      rw [hb]
      exact subsetOf_trans hs (subset_union_right _ _)

theorem TreeO.sizeBound {prims : List Primitive} {order : List ℕ} {nd : BVHBuildNode}
    {seg : List ℕ} (h : TreeO prims order nd seg) : nd.size ≤ 2 * seg.length - 1 := by
  induction h with
  | leaf b ax f seg hb hn hslice =>
    have : (BVHBuildNode.mk b none none ax f seg.length).size = 1 := rfl
    omega
  | interior b ax c0 c1 seg0 seg1 h0 h1 hb ih0 ih1 =>
    have hs := size_interior b c0 c1 ax 0
    have s0 := h0.segPos
    have s1 := h1.segPos
    simp only [List.length_append]
    omega

theorem TreeO.segOf_eq {prims : List Primitive} {order : List ℕ} {nd : BVHBuildNode}
    {seg : List ℕ} (h : TreeO prims order nd seg) : segOf order nd = seg := by
  induction h with
  | leaf b ax f seg hb hn hslice =>
    show (order.drop f).take seg.length = seg
    exact hslice
  | interior b ax c0 c1 seg0 seg1 h0 h1 hb ih0 ih1 =>
    show segOf order c0 ++ segOf order c1 = seg0 ++ seg1
    rw [ih0, ih1]

theorem slice_bound {order seg : List ℕ} {f : ℕ}
    (hslice : (order.drop f).take seg.length = seg) (hn : 1 ≤ seg.length) :
    f + seg.length ≤ order.length := by
  have hl : ((order.drop f).take seg.length).length = seg.length := by rw [hslice]
  rw [List.length_take, List.length_drop] at hl
  omega

theorem TreeO.goodAtOf {prims : List Primitive} {order : List ℕ} {nd : BVHBuildNode}
    {seg : List ℕ} (h : TreeO prims order nd seg) :
    ∀ (idx M : ℕ), order.length < 2^16 → idx + nd.size ≤ M → M < 2^32 →
      GoodAt nd idx := by
  induction h with
  | leaf b ax f seg hb hn hslice =>
    intro idx M h1 h3 h4
    have hfb := slice_bound hslice hn
    simp only [GoodAt]
    refine ⟨?_, hn, ?_⟩ <;> omega
  | interior b ax c0 c1 seg0 seg1 h0 h1 hb ih0 ih1 =>
    intro idx M hp2 hm1 hm2
    have hm1' : idx + (1 + c0.size + c1.size) ≤ M := by
      rw [← size_interior b c0 c1 ax 0]
      exact hm1
    have s1p := size_pos c1
    have s0p := size_pos c0
    simp only [GoodAt]
    refine ⟨by omega, ih0 (idx + 1) M hp2 (by omega) hm2,
      ih1 (idx + 1 + c0.size) M hp2 (by omega) hm2⟩

theorem treeOK_to_treeO {prims : List Primitive} {order : List ℕ} :
    ∀ {nd : BVHBuildNode} {off : ℕ} {seg : List ℕ}, TreeOK prims nd off seg →
    (order.drop off).take seg.length = seg → TreeO prims order nd seg := by
  intro nd off seg htree
  induction htree with
  | leaf b ax off seg hb hn =>
    intro hslice
    exact TreeO.leaf b ax off seg hb hn hslice
  | interior b ax c0 c1 off seg0 seg1 h0 h1 hb ih0 ih1 =>
    intro hslice
    exact TreeO.interior b ax c0 c1 seg0 seg1 (ih0 (slice_split_left hslice))
      (ih1 (slice_split_right hslice)) hb

theorem infosOf_length (prims : List Primitive) : (infosOf prims).length = prims.length := by
  simp [infosOf]

theorem infosOf_map_number (prims : List Primitive) :
    (infosOf prims).map BVHPrimitiveInfo.primitive_number = List.range prims.length := by
  unfold infosOf
  rw [List.map_map]
  have : (BVHPrimitiveInfo.primitive_number ∘ fun ip : ℕ × Primitive =>
      BVHPrimitiveInfo.new ip.1 ip.2.world_bound) = Prod.fst := by
    funext ip
    rfl
  rw [this]
  exact List.enum_map_fst prims

theorem infosOf_hinfo (prims : List Primitive) :
    ∀ info ∈ infosOf prims, ∃ p, prims[info.primitive_number]? = some p
      ∧ info.bounds = p.world_bound := by
  intro info hmem
  obtain ⟨⟨i, p⟩, hip, rfl⟩ := List.mem_map.mp hmem
  exact ⟨p, List.mk_mem_enum_iff_getElem?.mp hip, rfl⟩

theorem BVHAccel_new_of_ne (prims : List Primitive) (maxPrims : ℕ) (method : SplitMethod)
    (h : prims ≠ []) :
    BVHAccel.new prims maxPrims method =
      ⟨prims, (builtFor method maxPrims (infosOf prims)).2,
       flattenTree (builtFor method maxPrims (infosOf prims)).1 0⟩ := by
  unfold BVHAccel.new
  rw [if_neg]
  simp [h]

theorem built_spec (prims : List Primitive) (method : SplitMethod) (maxPrims : ℕ)
    (hne : prims ≠ []) :
    TreeOK prims (buildRecursive method maxPrims 0 (infosOf prims)).1 0
      (buildRecursive method maxPrims 0 (infosOf prims)).2
    ∧ (buildRecursive method maxPrims 0 (infosOf prims)).2.Perm (List.range prims.length) := by
  have hne' : infosOf prims ≠ [] := by
    intro h
    have := infosOf_length prims
    rw [h] at this
    exact hne (List.length_eq_zero.mp this.symm)
  have := buildRecursive_spec method maxPrims prims (infosOf prims).length (infosOf prims)
    (le_refl _) hne' (infosOf_hinfo prims) 0
  exact ⟨this.1, (infosOf_map_number prims) ▸ this.2⟩

theorem emitLBVH_zero (key : BVHPrimitiveInfo → ℕ) (off : ℕ) (infos : List BVHPrimitiveInfo) :
    emitLBVH key 0 off infos = leafFor off infos := rfl

theorem emitLBVH_small (key : BVHPrimitiveInfo → ℕ) (bit off : ℕ)
    (infos : List BVHPrimitiveInfo) (h : infos.length ≤ 1) :
    emitLBVH key (bit + 1) off infos = leafFor off infos := by
  rw [emitLBVH, if_pos h]

theorem emitLBVH_shared (key : BVHPrimitiveInfo → ℕ) (bit off : ℕ)
    (infos : List BVHPrimitiveInfo) (h1 : ¬ infos.length ≤ 1)
    (h2 : ((infos.filter fun i => decide ((key i / 2^bit) % 2 = 0)).isEmpty
        || (infos.filter fun i => !decide ((key i / 2^bit) % 2 = 0)).isEmpty) = true) :
    emitLBVH key (bit + 1) off infos = emitLBVH key bit off infos := by
  rw [emitLBVH, if_neg h1]
  dsimp only
  rw [if_pos h2]

theorem emitLBVH_split (key : BVHPrimitiveInfo → ℕ) (bit off : ℕ)
    (infos : List BVHPrimitiveInfo) (h1 : ¬ infos.length ≤ 1)
    (h2 : ¬ ((infos.filter fun i => decide ((key i / 2^bit) % 2 = 0)).isEmpty
        || (infos.filter fun i => !decide ((key i / 2^bit) % 2 = 0)).isEmpty) = true) :
    emitLBVH key (bit + 1) off infos =
      (BVHBuildNode.new_interior_node (axisOfBit bit)
        (emitLBVH key bit off (infos.filter fun i => decide ((key i / 2^bit) % 2 = 0))).1
        (emitLBVH key bit
          (off + (infos.filter fun i => decide ((key i / 2^bit) % 2 = 0)).length)
          (infos.filter fun i => !decide ((key i / 2^bit) % 2 = 0))).1,
       (emitLBVH key bit off (infos.filter fun i => decide ((key i / 2^bit) % 2 = 0))).2
        ++ (emitLBVH key bit
          (off + (infos.filter fun i => decide ((key i / 2^bit) % 2 = 0)).length)
          (infos.filter fun i => !decide ((key i / 2^bit) % 2 = 0))).2) := by
  rw [emitLBVH, if_neg h1]
  dsimp only
  rw [if_neg h2]

theorem emitLBVH_spec (key : BVHPrimitiveInfo → ℕ) (prims : List Primitive) :
    ∀ (bit : ℕ) (infos : List BVHPrimitiveInfo) (off : ℕ), infos ≠ [] →
    (∀ info ∈ infos, ∃ p, prims[info.primitive_number]? = some p
      ∧ info.bounds = p.world_bound) →
    TreeOK prims (emitLBVH key bit off infos).1 off (emitLBVH key bit off infos).2
    ∧ ((emitLBVH key bit off infos).2).Perm (infos.map BVHPrimitiveInfo.primitive_number) := by
  intro bit
  induction bit with
  | zero =>
    intro infos off hne hinfo
    rw [emitLBVH_zero]
    exact ⟨leafFor_ok prims infos off hne hinfo, by simp [leafFor]⟩
  | succ bit ih =>
    intro infos off hne hinfo
    by_cases h1 : infos.length ≤ 1
    · rw [emitLBVH_small key bit off infos h1]
      exact ⟨leafFor_ok prims infos off hne hinfo, by simp [leafFor]⟩
    by_cases h2 : ((infos.filter fun i => decide ((key i / 2^bit) % 2 = 0)).isEmpty
        || (infos.filter fun i => !decide ((key i / 2^bit) % 2 = 0)).isEmpty) = true
    · rw [emitLBVH_shared key bit off infos h1 h2]
      exact ih infos off hne hinfo
    · rw [emitLBVH_split key bit off infos h1 h2]
      rw [Bool.or_eq_true, not_or] at h2
      obtain ⟨hl0, hr0⟩ := h2
      have hnel : (infos.filter fun i => decide ((key i / 2^bit) % 2 = 0)) ≠ [] := by
        simpa [List.isEmpty_iff] using hl0
      have hner : (infos.filter fun i => !decide ((key i / 2^bit) % 2 = 0)) ≠ [] := by
        simpa [List.isEmpty_iff] using hr0
      have hperm := List.filter_append_perm
        (fun i => decide ((key i / 2^bit) % 2 = 0)) infos
      have hmeml : ∀ info ∈ (infos.filter fun i => decide ((key i / 2^bit) % 2 = 0)),
          info ∈ infos := fun info hi => List.mem_of_mem_filter hi
      have hmemr : ∀ info ∈ (infos.filter fun i => !decide ((key i / 2^bit) % 2 = 0)),
          info ∈ infos := fun info hi => List.mem_of_mem_filter hi
      have ihl := ih (infos.filter fun i => decide ((key i / 2^bit) % 2 = 0)) off hnel
        (fun info hi => hinfo info (hmeml info hi))
      have ihr := ih (infos.filter fun i => !decide ((key i / 2^bit) % 2 = 0))
        (off + (infos.filter fun i => decide ((key i / 2^bit) % 2 = 0)).length) hner
        (fun info hi => hinfo info (hmemr info hi))
      have hseg0len : (emitLBVH key bit off
          (infos.filter fun i => decide ((key i / 2^bit) % 2 = 0))).2.length
          = (infos.filter fun i => decide ((key i / 2^bit) % 2 = 0)).length :=
        ihl.2.length_eq.trans (List.length_map _ _)
      constructor
      · rw [BVHBuildNode.new_interior_node]
        refine TreeOK.interior _ _ _ _ _ _ _ ihl.1 ?_ rfl
        rw [hseg0len]
        exact ihr.1
      · refine (ihl.2.append ihr.2).trans ?_
        rw [← List.map_append]
        exact hperm.map _

theorem treeletsOf_nil (key : BVHPrimitiveInfo → ℕ) : treeletsOf key [] = [] := by
  rw [treeletsOf]

theorem treeletsOf_cons (key : BVHPrimitiveInfo → ℕ) (a : BVHPrimitiveInfo)
    (rest : List BVHPrimitiveInfo) :
    treeletsOf key (a :: rest) =
      (a :: rest.takeWhile fun b => key b == key a)
        :: treeletsOf key (rest.dropWhile fun b => key b == key a) := by
  rw [treeletsOf]

theorem treeletsOf_flatten (key : BVHPrimitiveInfo → ℕ) :
    ∀ (n : ℕ) (l : List BVHPrimitiveInfo), l.length ≤ n →
    (treeletsOf key l).flatten = l := by
  intro n
  induction n with
  | zero =>
    intro l hl
    rw [List.length_eq_zero.mp (Nat.le_zero.mp hl), treeletsOf_nil]
    rfl
  | succ n ih =>
    intro l hl
    rcases l with _ | ⟨a, rest⟩
    · rw [treeletsOf_nil]
      rfl
    · rw [treeletsOf_cons]
      have hdw : (rest.dropWhile fun b => key b == key a).length ≤ n := by
        have hsub : (rest.dropWhile fun b => key b == key a).length ≤ rest.length :=
          (List.dropWhile_sublist _).length_le
        simp only [List.length_cons] at hl
        omega
      simp only [List.flatten_cons, ih _ hdw, List.cons_append,
        List.takeWhile_append_dropWhile]

theorem treeletsOf_mem_ne_nil (key : BVHPrimitiveInfo → ℕ) :
    ∀ (n : ℕ) (l : List BVHPrimitiveInfo), l.length ≤ n →
    ∀ t ∈ treeletsOf key l, t ≠ [] := by
  intro n
  induction n with
  | zero =>
    intro l hl t ht
    rw [List.length_eq_zero.mp (Nat.le_zero.mp hl), treeletsOf_nil] at ht
    cases ht
  | succ n ih =>
    intro l hl t ht
    rcases l with _ | ⟨a, rest⟩
    · rw [treeletsOf_nil] at ht
      cases ht
    · rw [treeletsOf_cons] at ht
      rcases List.mem_cons.mp ht with h | h
      · rw [h]
        exact List.cons_ne_nil _ _
      · have hdw : (rest.dropWhile fun b => key b == key a).length ≤ n := by
          have hsub : (rest.dropWhile fun b => key b == key a).length ≤ rest.length :=
            (List.dropWhile_sublist _).length_le
          simp only [List.length_cons] at hl
          omega
        exact ih _ hdw t h

theorem emitTreelets_nil (key : BVHPrimitiveInfo → ℕ) (off : ℕ) :
    emitTreelets key off [] = [] := rfl

theorem emitTreelets_cons (key : BVHPrimitiveInfo → ℕ) (off : ℕ)
    (t : List BVHPrimitiveInfo) (ts : List (List BVHPrimitiveInfo)) :
    emitTreelets key off (t :: ts) =
      emitLBVH key (mortonBits - treeletMaskBits) off t
        :: emitTreelets key
            (off + (emitLBVH key (mortonBits - treeletMaskBits) off t).2.length) ts := rfl

theorem emitTreelets_spec (key : BVHPrimitiveInfo → ℕ) (prims : List Primitive) :
    ∀ (tls : List (List BVHPrimitiveInfo)) (off : ℕ),
    (∀ t ∈ tls, t ≠ []) →
    (∀ t ∈ tls, ∀ info ∈ t, ∃ p, prims[info.primitive_number]? = some p
      ∧ info.bounds = p.world_bound) →
    (((emitTreelets key off tls).map Prod.snd).flatten).Perm
        ((tls.flatten).map BVHPrimitiveInfo.primitive_number)
    ∧ ∀ (order : List ℕ),
        (order.drop off).take ((emitTreelets key off tls).map Prod.snd).flatten.length
          = ((emitTreelets key off tls).map Prod.snd).flatten →
        ∀ e ∈ emitTreelets key off tls, TreeO prims order e.1 e.2 := by
  intro tls
  induction tls with
  | nil =>
    intro off hne hinfo
    refine ⟨by simp [emitTreelets_nil], ?_⟩
    intro order hsl e he
    rw [emitTreelets_nil] at he
    cases he
  | cons t ts ih =>
    intro off hne hinfo
    have hspec := emitLBVH_spec key prims (mortonBits - treeletMaskBits) t off
      (hne t (List.mem_cons_self t ts)) (hinfo t (List.mem_cons_self t ts))
    have ihts := ih (off + (emitLBVH key (mortonBits - treeletMaskBits) off t).2.length)
      (fun t' ht' => hne t' (List.mem_cons_of_mem t ht'))
      (fun t' ht' => hinfo t' (List.mem_cons_of_mem t ht'))
    constructor
    · rw [emitTreelets_cons]
      simp only [List.map_cons, List.flatten_cons]
      refine (hspec.2.append ihts.1).trans ?_
      rw [← List.map_append]
    · intro order hsl e he
      rw [emitTreelets_cons] at he hsl
      simp only [List.map_cons, List.flatten_cons] at hsl
      have hsl0 := slice_split_left hsl
      have hsl1 := slice_split_right hsl
      rcases List.mem_cons.mp he with h | h
      · rw [h]
        exact treeOK_to_treeO hspec.1 hsl0
      · exact ihts.2 order hsl1 e h

theorem segOf_interior (order : List ℕ) (b : Bounds3) (c0 c1 : BVHBuildNode) (ax : Axis)
    (f : ℕ) :
    segOf order (.mk b (some c0) (some c1) ax f 0) = segOf order c0 ++ segOf order c1 := rfl

theorem upper_single (fuel : ℕ) (rt : BVHBuildNode) : buildUpperSAH fuel [rt] = rt := by
  cases fuel <;> rfl

theorem upper_step (fuel : ℕ) (r0 r1 : BVHBuildNode) (rest : List BVHBuildNode) :
    buildUpperSAH (fuel + 1) (r0 :: r1 :: rest) =
      BVHBuildNode.new_interior_node (upperAxis (r0 :: r1 :: rest))
        (buildUpperSAH fuel (upperSplit (r0 :: r1 :: rest)).1)
        (buildUpperSAH fuel (upperSplit (r0 :: r1 :: rest)).2) := by
  rw [buildUpperSAH]

theorem perm_halves_take_drop {α : Type} (rts sorted : List α) (hp : sorted.Perm rts)
    (h2 : 2 ≤ rts.length) :
    ((sorted.take (rts.length / 2)) ++ (sorted.drop (rts.length / 2))).Perm rts
    ∧ sorted.take (rts.length / 2) ≠ [] ∧ sorted.drop (rts.length / 2) ≠ []
    ∧ (sorted.take (rts.length / 2)).length < rts.length
    ∧ (sorted.drop (rts.length / 2)).length < rts.length := by
  have hlen := hp.length_eq
  have hmin : (sorted.take (rts.length / 2)).length = rts.length / 2 := by
    rw [List.length_take, hlen]
    exact Nat.min_eq_left (Nat.div_le_self _ _)
  have hdrop : (sorted.drop (rts.length / 2)).length = rts.length - rts.length / 2 := by
    rw [List.length_drop, hlen]
  refine ⟨by rw [List.take_append_drop]; exact hp, ?_, ?_, by omega, by omega⟩
  · intro h
    rw [h] at hmin
    simp only [List.length_nil] at hmin
    omega
  · intro h
    rw [h] at hdrop
    simp only [List.length_nil] at hdrop
    omega

theorem perm_halves_filter {α : Type} (p : α → Bool) (rts : List α)
    (hl : (rts.filter p).length ≠ 0) (hr : (rts.filter fun a => !p a).length ≠ 0) :
    ((rts.filter p) ++ (rts.filter fun a => !p a)).Perm rts
    ∧ rts.filter p ≠ [] ∧ (rts.filter fun a => !p a) ≠ []
    ∧ (rts.filter p).length < rts.length ∧ (rts.filter fun a => !p a).length < rts.length := by
  have hperm := List.filter_append_perm p rts
  have hsum := hperm.length_eq
  rw [List.length_append] at hsum
  refine ⟨hperm, ?_, ?_, by omega, by omega⟩
  · intro h
    rw [h] at hl
    simp at hl
  · intro h
    rw [h] at hr
    simp at hr

theorem upperSplit_spec (rts : List BVHBuildNode) (h2 : 2 ≤ rts.length) :
    ((upperSplit rts).1 ++ (upperSplit rts).2).Perm rts
    ∧ (upperSplit rts).1 ≠ [] ∧ (upperSplit rts).2 ≠ []
    ∧ (upperSplit rts).1.length < rts.length ∧ (upperSplit rts).2.length < rts.length := by
  unfold upperSplit
  dsimp only
  split
  · exact perm_halves_take_drop rts _ (List.mergeSort_perm rts _) h2
  · rename_i hg
    push_neg at hg
    exact perm_halves_filter _ rts hg.1 hg.2

theorem buildUpperSAH_spec (prims : List Primitive) (order : List ℕ) :
    ∀ (fuel : ℕ) (rts : List BVHBuildNode),
      rts.length ≤ fuel + 1 → rts ≠ [] →
      (∀ rt ∈ rts, TreeO prims order rt (segOf order rt)) →
      TreeO prims order (buildUpperSAH fuel rts) (segOf order (buildUpperSAH fuel rts))
      ∧ (segOf order (buildUpperSAH fuel rts)).Perm ((rts.map (segOf order)).flatten) := by
  intro fuel
  induction fuel with
  | zero =>
    intro rts hlen hne hall
    rcases rts with _ | ⟨r0, rest⟩
    · exact absurd rfl hne
    rcases rest with _ | ⟨r1, rest⟩
    · rw [upper_single]
      refine ⟨hall r0 (List.mem_singleton_self r0), ?_⟩
      simp
    · simp only [List.length_cons] at hlen
      omega
  | succ fuel ih =>
    intro rts hlen hne hall
    rcases rts with _ | ⟨r0, rest⟩
    · exact absurd rfl hne
    rcases rest with _ | ⟨r1, rest⟩
    · rw [upper_single]
      refine ⟨hall r0 (List.mem_singleton_self r0), ?_⟩
      simp
    · rw [upper_step]
      have h2 : 2 ≤ (r0 :: r1 :: rest).length := by
        simp only [List.length_cons]
        omega
      obtain ⟨hperm, hnel, hner, hll, hlr⟩ := upperSplit_spec (r0 :: r1 :: rest) h2
      have hmeml : ∀ rt ∈ (upperSplit (r0 :: r1 :: rest)).1, rt ∈ (r0 :: r1 :: rest) :=
        fun rt hrt => hperm.mem_iff.mp (List.mem_append.mpr (Or.inl hrt))
      have hmemr : ∀ rt ∈ (upperSplit (r0 :: r1 :: rest)).2, rt ∈ (r0 :: r1 :: rest) :=
        fun rt hrt => hperm.mem_iff.mp (List.mem_append.mpr (Or.inr hrt))
      simp only [List.length_cons] at hlen hll hlr
      have ihl := ih (upperSplit (r0 :: r1 :: rest)).1 (by omega) hnel
        (fun rt hrt => hall rt (hmeml rt hrt))
      have ihr := ih (upperSplit (r0 :: r1 :: rest)).2 (by omega) hner
        (fun rt hrt => hall rt (hmemr rt hrt))
      constructor
      · rw [BVHBuildNode.new_interior_node, segOf_interior]
        exact TreeO.interior _ _ _ _ _ _ ihl.1 ihr.1 rfl
      · rw [BVHBuildNode.new_interior_node, segOf_interior]
        refine (ihl.2.append ihr.2).trans ?_
        have : ((upperSplit (r0 :: r1 :: rest)).1.map (segOf order)).flatten
            ++ ((upperSplit (r0 :: r1 :: rest)).2.map (segOf order)).flatten
            = (((upperSplit (r0 :: r1 :: rest)).1 ++ (upperSplit (r0 :: r1 :: rest)).2).map
                (segOf order)).flatten := by
          rw [List.map_append, List.flatten_append]
        rw [this]
        exact (hperm.map (segOf order)).flatten

theorem hlbvhBuild_fst (infos : List BVHPrimitiveInfo) :
    (hlbvhBuild infos).1
      = buildUpperSAH (hlbvhEmitted infos).length ((hlbvhEmitted infos).map Prod.fst) := rfl

theorem hlbvhBuild_snd (infos : List BVHPrimitiveInfo) :
    (hlbvhBuild infos).2 = ((hlbvhEmitted infos).map Prod.snd).flatten := rfl

theorem hlbvhBuild_spec (prims : List Primitive) (hne : prims ≠ []) :
    ∃ seg, TreeO prims (hlbvhBuild (infosOf prims)).2 (hlbvhBuild (infosOf prims)).1 seg
      ∧ seg.Perm (List.range prims.length)
      ∧ (hlbvhBuild (infosOf prims)).2.Perm (List.range prims.length) := by
  have hsortperm : (hlbvhSorted (infosOf prims)).Perm (infosOf prims) :=
    List.mergeSort_perm _ _
  have hflat : (hlbvhTreelets (infosOf prims)).flatten = hlbvhSorted (infosOf prims) :=
    treeletsOf_flatten _ (hlbvhSorted (infosOf prims)).length _ (le_refl _)
  have htne : ∀ t ∈ hlbvhTreelets (infosOf prims), t ≠ [] :=
    treeletsOf_mem_ne_nil _ (hlbvhSorted (infosOf prims)).length _ (le_refl _)
  have htinfo : ∀ t ∈ hlbvhTreelets (infosOf prims), ∀ info ∈ t,
      ∃ p, prims[info.primitive_number]? = some p ∧ info.bounds = p.world_bound := by
    intro t ht info hi
    refine infosOf_hinfo prims info ?_
    have hmemflat : info ∈ (hlbvhTreelets (infosOf prims)).flatten :=
      List.mem_flatten.mpr ⟨t, ht, hi⟩
    rw [hflat] at hmemflat
    exact hsortperm.mem_iff.mp hmemflat
  obtain ⟨hePerm, heTreeO⟩ := emitTreelets_spec (mortonOf (infosCentroidBounds (infosOf prims)))
    prims (hlbvhTreelets (infosOf prims)) 0 htne htinfo
  have hemeq : emitTreelets (mortonOf (infosCentroidBounds (infosOf prims))) 0
      (hlbvhTreelets (infosOf prims)) = hlbvhEmitted (infosOf prims) := rfl
  rw [hemeq] at hePerm heTreeO
  rw [hflat] at hePerm
  have hordPerm : ((hlbvhEmitted (infosOf prims)).map Prod.snd).flatten.Perm
      (List.range prims.length) := by
    have h1 := hePerm.trans (hsortperm.map BVHPrimitiveInfo.primitive_number)
    rw [infosOf_map_number] at h1
    exact h1
  have hTreeO_each : ∀ e ∈ hlbvhEmitted (infosOf prims),
      TreeO prims ((hlbvhEmitted (infosOf prims)).map Prod.snd).flatten e.1 e.2 := by
    refine heTreeO _ ?_
    rw [List.drop_zero, List.take_length]
  have hemne : hlbvhEmitted (infosOf prims) ≠ [] := by
    intro h
    have hflat' := hflat
    rcases htls : hlbvhTreelets (infosOf prims) with _ | ⟨t, ts⟩
    · rw [htls] at hflat'
      have hs0 : hlbvhSorted (infosOf prims) = [] := hflat'.symm
      have : (infosOf prims).length = 0 := by
        rw [← hsortperm.length_eq, hs0]
        rfl
      rw [infosOf_length] at this
      exact hne (List.length_eq_zero.mp this)
    · unfold hlbvhEmitted at h
      rw [htls, emitTreelets_cons] at h
      cases h
  have hroots_ne : (hlbvhEmitted (infosOf prims)).map Prod.fst ≠ [] := by
    intro h
    exact hemne (List.map_eq_nil_iff.mp h)
  have hall : ∀ rt ∈ (hlbvhEmitted (infosOf prims)).map Prod.fst,
      TreeO prims ((hlbvhEmitted (infosOf prims)).map Prod.snd).flatten rt
        (segOf ((hlbvhEmitted (infosOf prims)).map Prod.snd).flatten rt) := by
    intro rt hrt
    obtain ⟨e, he, rfl⟩ := List.mem_map.mp hrt
    have h1 := hTreeO_each e he
    rw [h1.segOf_eq]
    exact h1
  obtain ⟨hT, hP⟩ := buildUpperSAH_spec prims ((hlbvhEmitted (infosOf prims)).map Prod.snd).flatten
    (hlbvhEmitted (infosOf prims)).length ((hlbvhEmitted (infosOf prims)).map Prod.fst)
    (by rw [List.length_map]; omega) hroots_ne hall
  have hmapeq : ((hlbvhEmitted (infosOf prims)).map Prod.fst).map
      (segOf ((hlbvhEmitted (infosOf prims)).map Prod.snd).flatten)
      = (hlbvhEmitted (infosOf prims)).map Prod.snd := by
    rw [List.map_map]
    exact List.map_congr_left (fun e he => (hTreeO_each e he).segOf_eq)
  rw [hmapeq] at hP
  refine ⟨_, ?_, hP.trans hordPerm, ?_⟩
  · rw [hlbvhBuild_fst, hlbvhBuild_snd]
    exact hT
  · rw [hlbvhBuild_snd]
    exact hordPerm

theorem builtFor_spec (prims : List Primitive) (method : SplitMethod) (maxPrims : ℕ)
    (hne : prims ≠ []) :
    ∃ seg, TreeO prims (builtFor method maxPrims (infosOf prims)).2
        (builtFor method maxPrims (infosOf prims)).1 seg
      ∧ seg.Perm (List.range prims.length)
      ∧ (builtFor method maxPrims (infosOf prims)).2.Perm (List.range prims.length) := by
  by_cases hm : method = SplitMethod.HLBVH
  · rw [builtFor, if_pos hm]
    exact hlbvhBuild_spec prims hne
  · rw [builtFor, if_neg hm]
    obtain ⟨htree, hperm⟩ := built_spec prims method maxPrims hne
    refine ⟨(buildRecursive method maxPrims 0 (infosOf prims)).2, ?_, hperm, hperm⟩
    refine treeOK_to_treeO htree ?_
    rw [List.drop_zero, List.take_length]

theorem leafRanges_append (a b : List LinearBVHNode) :
    leafRanges (a ++ b) = leafRanges a ++ leafRanges b := by
  simp [leafRanges, List.filterMap_append]

theorem coveredPositions_append (a b : List (ℕ × ℕ)) :
    coveredPositions (a ++ b) = coveredPositions a ++ coveredPositions b := by
  simp [coveredPositions]

theorem map_getD_slice (order : List ℕ) (f len : ℕ) (h : f + len ≤ order.length) :
    (List.range' f len).map (fun j => order.getD j 0) = (order.drop f).take len := by
  apply List.ext_getElem
  · rw [List.length_map, List.length_range', List.length_take, List.length_drop]
    omega
  · intro i h1 h2
    rw [List.length_map, List.length_range'] at h1
    simp only [List.getElem_map, List.getElem_range', one_mul]
    rw [List.getElem_take, List.getElem_drop, List.getD_eq_getElem]

theorem cover_spec {prims : List Primitive} {order : List ℕ} :
    ∀ {nd : BVHBuildNode} {seg : List ℕ}, TreeO prims order nd seg →
    ∀ idx, GoodAt nd idx →
      (coveredPositions (leafRanges (flattenTree nd idx))).map
          (fun j => order.getD j 0) = seg
      ∧ ∀ p ∈ coveredPositions (leafRanges (flattenTree nd idx)), p < order.length := by
  intro nd seg htree
  induction htree with
  | leaf b ax f seg hbs hn hslice =>
    intro idx hg
    simp only [GoodAt] at hg
    have hfb := slice_bound hslice hn
    have hcov : coveredPositions (leafRanges
        (flattenTree (BVHBuildNode.mk b none none ax f seg.length) idx))
        = List.range' f seg.length := by
      rw [flattenTree_leaf]
      unfold leafRanges coveredPositions
      simp only [List.filterMap_cons, List.filterMap_nil, LinearBVHNode.new_leaf_node, u16, u32]
      rw [Nat.mod_eq_of_lt hg.2.2, Nat.mod_eq_of_lt hg.1]
      rw [if_pos (by omega : 0 < seg.length)]
      simp only [List.flatMap_cons, List.flatMap_nil, List.append_nil]
      rw [List.range'_eq_map_range]
    rw [hcov]
    refine ⟨?_, ?_⟩
    · rw [map_getD_slice order f seg.length hfb]
      exact hslice
    · intro p hp
      obtain ⟨hp1, hp2⟩ := List.mem_range'_1.mp hp
      omega
  | interior b ax c0 c1 seg0 seg1 h0 h1 hbb ih0 ih1 =>
    intro idx hg
    simp only [GoodAt] at hg
    obtain ⟨hfit, hg0, hg1⟩ := hg
    rw [flattenTree_interior]
    have hx : leafRanges (LinearBVHNode.new_interior_node b (u32 (idx + 1 + c0.size)) ax.toU8
        :: (flattenTree c0 (idx + 1) ++ flattenTree c1 (idx + 1 + c0.size)))
        = leafRanges (flattenTree c0 (idx + 1))
          ++ leafRanges (flattenTree c1 (idx + 1 + c0.size)) := by
      unfold leafRanges
      simp [LinearBVHNode.new_interior_node, u16, List.filterMap_append]
    rw [hx, coveredPositions_append, List.map_append]
    obtain ⟨hm0, hb0⟩ := ih0 (idx + 1) hg0
    obtain ⟨hm1, hb1⟩ := ih1 (idx + 1 + c0.size) hg1
    refine ⟨by rw [hm0, hm1], ?_⟩
    intro p hp
    rcases List.mem_append.mp hp with h | h
    · exact hb0 p h
    · exact hb1 p h

/-- C4: after construction the ordered-primitive index array is a
permutation of `0..n` (every original index appears exactly once), and the
leaf nodes' primitive ranges, read off the flattened array, exactly
partition that array with no overlap and no gaps: the positions they cover,
collected over all leaves, are a permutation of the array positions
`0..n` (with the HLBVH upper SAH merge arranging treelet roots freely,
the ranges need not appear in array order, but they still cover every
position exactly once). -/
theorem bvh_order_perm_and_leaf_partition (prims : List Primitive) (maxPrims : ℕ)
    (method : SplitMethod) (hn : prims.length < 2^16) :
    (BVHAccel.new prims maxPrims method).order.Perm (List.range prims.length)
    ∧ (coveredPositions (leafRanges (BVHAccel.new prims maxPrims method).nodes)).Perm
        (List.range prims.length) := by
  by_cases hne : prims = []
  · subst hne
    have h : BVHAccel.new ([] : List Primitive) maxPrims method = ⟨[], [], []⟩ := rfl
    rw [h]
    exact ⟨by simp, by simp [coveredPositions, leafRanges]⟩
  · rw [BVHAccel_new_of_ne prims maxPrims method hne]
    obtain ⟨seg, htree, hsegperm, hordperm⟩ := builtFor_spec prims method maxPrims hne
    have hlen : (builtFor method maxPrims (infosOf prims)).2.length = prims.length := by
      rw [hordperm.length_eq, List.length_range]
    have hseglen : seg.length = prims.length := by
      rw [hsegperm.length_eq, List.length_range]
    have hsz := htree.sizeBound
    have hgood : GoodAt (builtFor method maxPrims (infosOf prims)).1 0 :=
      htree.goodAtOf 0 (2 * prims.length) (by omega) (by omega) (by omega)
    refine ⟨hordperm, ?_⟩
    obtain ⟨hmap, hbnd⟩ := cover_spec htree 0 hgood
    have hnodup : (coveredPositions (leafRanges
        (flattenTree (builtFor method maxPrims (infosOf prims)).1 0))).Nodup := by
      apply List.Nodup.of_map (fun j => (builtFor method maxPrims (infosOf prims)).2.getD j 0)
      rw [hmap]
      exact hsegperm.nodup_iff.mpr (List.nodup_range _)
    have hsub : coveredPositions (leafRanges
        (flattenTree (builtFor method maxPrims (infosOf prims)).1 0))
        ⊆ List.range prims.length := by
      intro p hp
      have := hbnd p hp
      exact List.mem_range.mpr (by omega)
    have hsp := List.subperm_of_subset hnodup hsub
    have hclen : (coveredPositions (leafRanges
        (flattenTree (builtFor method maxPrims (infosOf prims)).1 0))).length
        = prims.length := by
      have hml := congrArg List.length hmap
      rw [List.length_map] at hml
      omega
    exact hsp.perm_of_length_le (by rw [List.length_range]; omega)


/-- C5: building from the empty primitive collection succeeds and yields
the degenerate accelerator: its `world_bound()` is an empty/invalid box
and every closest-hit and any-hit query reports no hit. -/
theorem bvh_empty_build (maxPrims : ℕ) (method : SplitMethod) :
    (BVHAccel.new [] maxPrims method).world_bound.isEmptyBox
    ∧ ∀ (r : Ray) (t_max : ℚ),
        (BVHAccel.new [] maxPrims method).intersect r t_max = none
        ∧ (BVHAccel.new [] maxPrims method).intersect_p r t_max = false := by
  have hempty : BVHAccel.new [] maxPrims method = ⟨[], [], []⟩ := rfl
  refine ⟨?_, fun r t_max => ⟨?_, ?_⟩⟩
  · rw [hempty]
    show Bounds3.invalid.isEmptyBox
    unfold Bounds3.isEmptyBox Bounds3.invalid
    norm_num
  · rw [hempty]
    rfl
  · rw [hempty]
    rfl

/-- C6: for every range of size at least 2, the EqualCounts split puts
exactly `⌊k/2⌋` primitives on the left and `⌈k/2⌉ = k - ⌊k/2⌋` on the
right, and every left primitive's centroid coordinate along the chosen
axis is at most every right primitive's. -/
theorem equalCounts_split_spec (ax : Axis) (infos : List BVHPrimitiveInfo)
    (h : 2 ≤ infos.length) :
    (equalCountsSplit ax infos).1.length = infos.length / 2
    ∧ (equalCountsSplit ax infos).2.length = infos.length - infos.length / 2
    ∧ ∀ a ∈ (equalCountsSplit ax infos).1, ∀ b ∈ (equalCountsSplit ax infos).2,
        a.centroid.axisCoord ax ≤ b.centroid.axisCoord ax := by
  have hlen : (infos.mergeSort (centroidLe ax)).length = infos.length :=
    List.length_mergeSort ..
  refine ⟨?_, ?_, ?_⟩
  · simp only [equalCountsSplit, List.length_take, hlen]
    exact Nat.min_eq_left (Nat.div_le_self _ _)
  · simp only [equalCountsSplit, List.length_drop, hlen]
  · have hsorted : (infos.mergeSort (centroidLe ax)).Pairwise (fun a b => centroidLe ax a b) := by
      refine List.sorted_mergeSort ?_ ?_ infos
      · intro a b c hab hbc
        simp only [centroidLe, decide_eq_true_eq] at *
        exact le_trans hab hbc
      · intro a b
        simp only [centroidLe]
        rcases le_total (a.centroid.axisCoord ax) (b.centroid.axisCoord ax) with h | h
        · simp [h]
        · simp [h]
    rw [← List.take_append_drop (infos.length / 2) (infos.mergeSort (centroidLe ax))] at hsorted
    have hcross := (List.pairwise_append.mp hsorted).2.2
    intro a ha b hb
    have := hcross a ha b hb
    simpa [centroidLe, decide_eq_true_eq] using this

/-- Witness for C6: the EqualCounts split of the three-cube demo infos. -/
theorem equalCounts_split_spec_witness :
    2 ≤ (infosOf demoScene).length
    ∧ ((equalCountsSplit Axis.X (infosOf demoScene)).1.length = (infosOf demoScene).length / 2
      ∧ (equalCountsSplit Axis.X (infosOf demoScene)).2.length
          = (infosOf demoScene).length - (infosOf demoScene).length / 2
      ∧ ∀ a ∈ (equalCountsSplit Axis.X (infosOf demoScene)).1,
          ∀ b ∈ (equalCountsSplit Axis.X (infosOf demoScene)).2,
            a.centroid.axisCoord Axis.X ≤ b.centroid.axisCoord Axis.X) :=
  ⟨by decide, equalCounts_split_spec Axis.X (infosOf demoScene) (by decide)⟩

/-- Witness for C4: the order permutation and leaf partition on the
three-cube demo scene. -/
theorem bvh_order_perm_and_leaf_partition_witness :
    demoScene.length < 2^16
    ∧ ((BVHAccel.new demoScene 1 SplitMethod.HLBVH).order.Perm
        (List.range demoScene.length)
      ∧ (coveredPositions (leafRanges
          (BVHAccel.new demoScene 1 SplitMethod.HLBVH).nodes)).Perm
          (List.range demoScene.length)) :=
  ⟨by decide,
   bvh_order_perm_and_leaf_partition demoScene 1 SplitMethod.HLBVH (by decide)⟩

/-- C3: every build-tree node produced by the two `BVHBuildNode` constructors
is a leaf XOR an interior node: `new_leaf_node` yields both children `none`
and stores the given offset, count and bounds, while `new_interior_node`
yields two `some` children, `n_primitives = 0`, and bounds equal to the
union of its two children's bounds. -/
theorem buildNode_constructors_leaf_xor_interior (first n : ℕ) (b : Bounds3) (ax : Axis)
    (c0 c1 : BVHBuildNode) :
    ((BVHBuildNode.new_leaf_node first n b).children = (none, none)
      ∧ (BVHBuildNode.new_leaf_node first n b).first_prim_offset = first
      ∧ (BVHBuildNode.new_leaf_node first n b).n_primitives = n
      ∧ (BVHBuildNode.new_leaf_node first n b).bounds = b
      ∧ Xor' (BVHBuildNode.new_leaf_node first n b).isLeaf
          (BVHBuildNode.new_leaf_node first n b).isInterior)
    ∧ ((BVHBuildNode.new_interior_node ax c0 c1).children = (some c0, some c1)
      ∧ (BVHBuildNode.new_interior_node ax c0 c1).n_primitives = 0
      ∧ (BVHBuildNode.new_interior_node ax c0 c1).bounds = c0.bounds.union c1.bounds
      ∧ Xor' (BVHBuildNode.new_interior_node ax c0 c1).isInterior
          (BVHBuildNode.new_interior_node ax c0 c1).isLeaf) := by
  refine ⟨⟨rfl, rfl, rfl, rfl, Or.inl ⟨⟨rfl, rfl⟩, ?_⟩⟩,
    ⟨rfl, rfl, rfl, Or.inl ⟨⟨⟨c0, rfl⟩, ⟨c1, rfl⟩⟩, ?_⟩⟩⟩
  · rintro ⟨⟨c, hc⟩, -⟩
    simp [BVHBuildNode.new_leaf_node, BVHBuildNode.child0] at hc
  · rintro ⟨hc, -⟩
    simp [BVHBuildNode.new_interior_node, BVHBuildNode.child0] at hc

/-- C7: `LinearBVHNode::new_interior_node` stores the given second-child
offset and split axis with `n_primitives = 0`, and
`LinearBVHNode::new_leaf_node` stores the given primitive-array offset and
primitive count. -/
theorem linearNode_constructors_fields (b : Bounds3) (o : Fin (2^32)) (n : Fin (2^16))
    (ax : Fin (2^8)) :
    ((LinearBVHNode.new_leaf_node b o n).bounds = b
      ∧ (LinearBVHNode.new_leaf_node b o n).offset = o
      ∧ (LinearBVHNode.new_leaf_node b o n).n_primitives = n)
    ∧ ((LinearBVHNode.new_interior_node b o ax).bounds = b
      ∧ (LinearBVHNode.new_interior_node b o ax).offset = o
      ∧ (LinearBVHNode.new_interior_node b o ax).axis = ax
      ∧ ((LinearBVHNode.new_interior_node b o ax).n_primitives : ℕ) = 0) :=
  ⟨⟨rfl, rfl, rfl⟩, ⟨rfl, rfl, rfl, rfl⟩⟩

/-- C8: `BVHPrimitiveInfo::new(i, b)` keeps the primitive index and bounds
unchanged and computes the centroid as the box midpoint
`0.5 * (p_min + p_max)`. -/
theorem primitiveInfo_new_fields (i : ℕ) (b : Bounds3) :
    (BVHPrimitiveInfo.new i b).primitive_number = i
    ∧ (BVHPrimitiveInfo.new i b).bounds = b
    ∧ (BVHPrimitiveInfo.new i b).centroid = ((1 : ℚ)/2) • (b.p_min + b.p_max) :=
  ⟨rfl, rfl, rfl⟩

/-- C9: a zero-primitive leaf linear node is bit-for-bit identical to an
interior linear node with split axis 0: `new_leaf_node b o 0` equals
`new_interior_node b o 0` for every bounds `b` and offset `o`. -/
theorem linearNode_zero_leaf_eq_interior (b : Bounds3) (o : Fin (2^32)) :
    LinearBVHNode.new_leaf_node b o (u16 0) = LinearBVHNode.new_interior_node b o (u8 0) :=
  rfl

/-- C10: every `LinearBVHNode` stores its primitive count in a `u16` and its
offset in a `u32`, so the count is at most `2^16 - 1` and the offset at most
`2^32 - 1`. -/
theorem linearNode_field_caps (nd : LinearBVHNode) :
    (nd.n_primitives : ℕ) ≤ 2^16 - 1 ∧ (nd.offset : ℕ) ≤ 2^32 - 1 := by
  have h1 := nd.n_primitives.isLt
  have h2 := nd.offset.isLt
  omega

end PbrBVH

namespace PbrBVH

theorem postAcc_skip {prims : List Primitive} {r : Ray} {S : List ℕ} {a : ℚ × Option ℕ}
    (h : ∀ i ∈ S, ∀ u, ValidHit prims r i u → ¬ u < a.1) : PostAcc prims r S a a :=
  ⟨le_refl _, Or.inl rfl, fun i hi u hv hu => absurd hu (h i hi u hv)⟩

theorem postAcc_compose {prims : List Primitive} {r : Ray} {S1 S2 : List ℕ}
    {a b c : ℚ × Option ℕ} (h1 : PostAcc prims r S1 a b) (h2 : PostAcc prims r S2 b c) :
    PostAcc prims r (S1 ++ S2) a c := by
  obtain ⟨hle1, hd1, hmin1⟩ := h1
  obtain ⟨hle2, hd2, hmin2⟩ := h2
  refine ⟨le_trans hle2 hle1, ?_, ?_⟩
  · rcases hd2 with rfl | ⟨i, hi, hv, hb2, hlt⟩
    · rcases hd1 with rfl | ⟨i, hi, hv, hb1, hlt⟩
      · exact Or.inl rfl
      · exact Or.inr ⟨i, List.mem_append.mpr (Or.inl hi), hv, hb1, hlt⟩
    · exact Or.inr ⟨i, List.mem_append.mpr (Or.inr hi), hv, hb2, lt_of_lt_of_le hlt hle1⟩
  · intro i hi u hv hu
    rcases List.mem_append.mp hi with hm | hm
    · exact le_trans hle2 (hmin1 i hm u hv hu)
    · by_cases hub : u < b.1
      · exact hmin2 i hm u hv hub
      · push_neg at hub
        exact le_trans hle2 hub

theorem postAcc_congr_mem {prims : List Primitive} {r : Ray} {S S' : List ℕ}
    {a b : ℚ × Option ℕ} (hss : ∀ i, i ∈ S ↔ i ∈ S') (h : PostAcc prims r S a b) :
    PostAcc prims r S' a b := by
  obtain ⟨hle, hd, hmin⟩ := h
  refine ⟨hle, ?_, fun i hi => hmin i ((hss i).mpr hi)⟩
  rcases hd with rfl | ⟨i, hi, rest⟩
  · exact Or.inl rfl
  · exact Or.inr ⟨i, (hss i).mp hi, rest⟩

theorem primUpdate_post (prims : List Primitive) (r : Ray) (a : ℚ × Option ℕ) (i : ℕ) :
    PostAcc prims r [i] a (primUpdate prims r a i) := by
  unfold primUpdate
  rcases hp : prims[i]? with _ | p
  · refine postAcc_skip ?_
    intro j hj u hv
    rw [List.mem_singleton.mp hj] at hv
    obtain ⟨p', hp', -, -⟩ := hv
    rw [hp] at hp'
    cases hp'
  · dsimp only
    rcases ht : p.intersectT r with _ | t
    · refine postAcc_skip ?_
      intro j hj u hv
      rw [List.mem_singleton.mp hj] at hv
      obtain ⟨p', hp', ht', -⟩ := hv
      rw [hp] at hp'
      injection hp' with hpe
      subst hpe
      rw [ht] at ht'
      cases ht'
    · dsimp only
      by_cases hc : 0 < t ∧ t < a.1
      · rw [if_pos hc]
        refine ⟨le_of_lt hc.2, Or.inr ⟨i, List.mem_singleton_self i, ⟨p, hp, ht, hc.1⟩, rfl, hc.2⟩, ?_⟩
        intro j hj u hv hu
        rw [List.mem_singleton.mp hj] at hv
        obtain ⟨p', hp', ht', -⟩ := hv
        rw [hp] at hp'
        injection hp' with hpe
        subst hpe
        rw [ht] at ht'
        injection ht' with hte
        subst hte
        exact le_refl _
      · rw [if_neg hc]
        refine postAcc_skip ?_
        intro j hj u hv hu
        rw [List.mem_singleton.mp hj] at hv
        obtain ⟨p', hp', ht', hpos⟩ := hv
        rw [hp] at hp'
        injection hp' with hpe
        subst hpe
        rw [ht] at ht'
        injection ht' with hte
        subst hte
        exact hc ⟨hpos, hu⟩

end PbrBVH

namespace PbrBVH

theorem foldl_primUpdate_post (prims : List Primitive) (r : Ray) :
    ∀ (S : List ℕ) (a : ℚ × Option ℕ),
      PostAcc prims r S a (S.foldl (primUpdate prims r) a) := by
  intro S
  induction S with
  | nil =>
    intro a
    exact postAcc_skip (by simp)
  | cons i S ih =>
    intro a
    have hc := postAcc_compose (primUpdate_post prims r a i) (ih (primUpdate prims r a i))
    simpa using hc

theorem pruned_no_hit {prims : List Primitive} {r : Ray} {order : List ℕ}
    {nd : BVHBuildNode} {seg : List ℕ} {t1 : ℚ}
    (htree : TreeO prims order nd seg)
    (hb : ∀ p ∈ prims, ∀ t, p.intersectT r = some t → p.world_bound.containsPoint (r.at t))
    (hmiss : ¬ nd.bounds.rayHit r t1 = true) :
    ∀ i ∈ seg, ∀ u, ValidHit prims r i u → ¬ u < t1 := by
  intro i hi u hv hu
  obtain ⟨p, hp, hsub⟩ := htree.boundsSub i hi
  obtain ⟨p', hp', ht', hpos⟩ := hv
  rw [hp] at hp'
  injection hp' with hpe
  subst hpe
  have hcont := hb p (List.getElem?_mem hp) u ht'
  have hcont2 := containsPoint_mono hsub hcont
  exact hmiss (rayHit_of_containsPoint (le_of_lt hpos) (le_of_lt hu) hcont2)

theorem visitAcc_leaf (prims : List Primitive) (order : List ℕ) (r : Ray) (b : Bounds3)
    (ax : Axis) (f n : ℕ) (a : ℚ × Option ℕ) :
    visitAcc prims order r (.mk b none none ax f n) a =
      if b.rayHit r a.1 then ((order.drop f).take n).foldl (primUpdate prims r) a else a := rfl

theorem visitAcc_interior (prims : List Primitive) (order : List ℕ) (r : Ray) (b : Bounds3)
    (c0 c1 : BVHBuildNode) (ax : Axis) (f : ℕ) (a : ℚ × Option ℕ) :
    visitAcc prims order r (.mk b (some c0) (some c1) ax f 0) a =
      if b.rayHit r a.1 then
        (if dirComponent r.d ax.toU8 < 0 then
          visitAcc prims order r c0 (visitAcc prims order r c1 a)
         else visitAcc prims order r c1 (visitAcc prims order r c0 a))
      else a := rfl

end PbrBVH

namespace PbrBVH

theorem visitAcc_post {prims : List Primitive} {r : Ray} {order : List ℕ}
    (hb : ∀ p ∈ prims, ∀ t, p.intersectT r = some t → p.world_bound.containsPoint (r.at t)) :
    ∀ {nd : BVHBuildNode} {seg : List ℕ}, TreeO prims order nd seg →
    ∀ a, PostAcc prims r seg a (visitAcc prims order r nd a) := by
  intro nd seg htree
  induction htree with
  | leaf b ax f seg hbs hn hslice =>
    intro a
    rw [visitAcc_leaf]
    by_cases hhit : b.rayHit r a.1 = true
    · rw [if_pos hhit, hslice]
      exact foldl_primUpdate_post prims r seg a
    · rw [if_neg hhit]
      exact postAcc_skip (pruned_no_hit (TreeO.leaf b ax f seg hbs hn hslice) hb hhit)
  | interior b ax c0 c1 seg0 seg1 h0 h1 hbb ih0 ih1 =>
    intro a
    rw [visitAcc_interior]
    by_cases hhit : b.rayHit r a.1 = true
    · rw [if_pos hhit]
      by_cases hneg : dirComponent r.d ax.toU8 < 0
      · rw [if_pos hneg]
        have p1 := ih1 a
        have p0 := ih0 (visitAcc prims order r c1 a)
        refine postAcc_congr_mem ?_ (postAcc_compose p1 p0)
        intro i
        simp only [List.mem_append]
        tauto
      · rw [if_neg hneg]
        exact postAcc_compose (ih0 a) (ih1 (visitAcc prims order r c0 a))
    · rw [if_neg hhit]
      exact postAcc_skip
        (pruned_no_hit (TreeO.interior b ax c0 c1 seg0 seg1 h0 h1 hbb) hb hhit)

end PbrBVH

namespace PbrBVH

theorem visitP_leaf (prims : List Primitive) (order : List ℕ) (r : Ray) (t_max : ℚ)
    (b : Bounds3) (ax : Axis) (f n : ℕ) :
    visitP prims order r t_max (.mk b none none ax f n) =
      if b.rayHit r t_max then ((order.drop f).take n).any (primAnyHit prims r t_max)
      else false := rfl

theorem visitP_interior (prims : List Primitive) (order : List ℕ) (r : Ray) (t_max : ℚ)
    (b : Bounds3) (c0 c1 : BVHBuildNode) (ax : Axis) (f : ℕ) :
    visitP prims order r t_max (.mk b (some c0) (some c1) ax f 0) =
      if b.rayHit r t_max then
        (if dirComponent r.d ax.toU8 < 0 then
          visitP prims order r t_max c1 || visitP prims order r t_max c0
         else visitP prims order r t_max c0 || visitP prims order r t_max c1)
      else false := rfl

theorem primAnyHit_iff (prims : List Primitive) (r : Ray) (t_max : ℚ) (i : ℕ) :
    primAnyHit prims r t_max i = true ↔ ∃ u, ValidHit prims r i u ∧ u < t_max := by
  unfold primAnyHit
  rcases hp : prims[i]? with _ | p
  · simp only [Bool.false_eq_true, false_iff]
    rintro ⟨u, ⟨p', hp', -, -⟩, -⟩
    rw [hp] at hp'
    cases hp'
  · dsimp only
    rcases ht : p.intersectT r with _ | t
    · simp only [Bool.false_eq_true, false_iff]
      rintro ⟨u, ⟨p', hp', ht', -⟩, -⟩
      rw [hp] at hp'
      injection hp' with hpe
      subst hpe
      rw [ht] at ht'
      cases ht'
    · rw [decide_eq_true_eq]
      constructor
      · rintro ⟨hpos, hlt⟩
        exact ⟨t, ⟨p, hp, ht, hpos⟩, hlt⟩
      · rintro ⟨u, ⟨p', hp', ht', hpos⟩, hlt⟩
        rw [hp] at hp'
        injection hp' with hpe
        subst hpe
        rw [ht] at ht'
        injection ht' with hte
        subst hte
        exact ⟨hpos, hlt⟩

theorem visitP_iff {prims : List Primitive} {r : Ray} {order : List ℕ} {t_max : ℚ}
    (hb : ∀ p ∈ prims, ∀ t, p.intersectT r = some t → p.world_bound.containsPoint (r.at t)) :
    ∀ {nd : BVHBuildNode} {seg : List ℕ}, TreeO prims order nd seg →
    (visitP prims order r t_max nd = true
      ↔ ∃ i ∈ seg, ∃ u, ValidHit prims r i u ∧ u < t_max) := by
  intro nd seg htree
  induction htree with
  | leaf b ax f seg hbs hn hslice =>
    rw [visitP_leaf]
    by_cases hhit : b.rayHit r t_max = true
    · rw [if_pos hhit, hslice, List.any_eq_true]
      constructor
      · rintro ⟨i, hi, hpa⟩
        obtain ⟨u, hv, hu⟩ := (primAnyHit_iff prims r t_max i).mp hpa
        exact ⟨i, hi, u, hv, hu⟩
      · rintro ⟨i, hi, u, hv, hu⟩
        exact ⟨i, hi, (primAnyHit_iff prims r t_max i).mpr ⟨u, hv, hu⟩⟩
    · rw [if_neg hhit]
      simp only [Bool.false_eq_true, false_iff]
      rintro ⟨i, hi, u, hv, hu⟩
      exact pruned_no_hit (TreeO.leaf b ax f seg hbs hn hslice) hb hhit i hi u hv hu
  | interior b ax c0 c1 seg0 seg1 h0 h1 hbb ih0 ih1 =>
    rw [visitP_interior]
    by_cases hhit : b.rayHit r t_max = true
    · rw [if_pos hhit]
      have e0 := ih0
      have e1 := ih1
      by_cases hneg : dirComponent r.d ax.toU8 < 0
      · rw [if_pos hneg, Bool.or_eq_true, e0, e1]
        constructor
        · rintro (⟨i, hi, hrest⟩ | ⟨i, hi, hrest⟩)
          · exact ⟨i, List.mem_append.mpr (Or.inr hi), hrest⟩
          · exact ⟨i, List.mem_append.mpr (Or.inl hi), hrest⟩
        · rintro ⟨i, hi, hrest⟩
          rcases List.mem_append.mp hi with hm | hm
          · exact Or.inr ⟨i, hm, hrest⟩
          · exact Or.inl ⟨i, hm, hrest⟩
      · rw [if_neg hneg, Bool.or_eq_true, e0, e1]
        constructor
        · rintro (⟨i, hi, hrest⟩ | ⟨i, hi, hrest⟩)
          · exact ⟨i, List.mem_append.mpr (Or.inl hi), hrest⟩
          · exact ⟨i, List.mem_append.mpr (Or.inr hi), hrest⟩
        · rintro ⟨i, hi, hrest⟩
          rcases List.mem_append.mp hi with hm | hm
          · exact Or.inl ⟨i, hm, hrest⟩
          · exact Or.inr ⟨i, hm, hrest⟩
    · rw [if_neg hhit]
      simp only [Bool.false_eq_true, false_iff]
      rintro ⟨i, hi, u, hv, hu⟩
      exact pruned_no_hit (TreeO.interior b ax c0 c1 seg0 seg1 h0 h1 hbb) hb hhit i hi u hv hu

end PbrBVH

namespace PbrBVH

theorem u32_val (x : ℕ) (h : x < 2^32) : ((u32 x : Fin (2^32)) : ℕ) = x := Nat.mod_eq_of_lt h

theorem u16_val (x : ℕ) (h : x < 2^16) : ((u16 x : Fin (2^16)) : ℕ) = x := Nat.mod_eq_of_lt h

theorem traverseLoop_nil (arr : List LinearBVHNode) (order : List ℕ) (prims : List Primitive)
    (r : Ray) : ∀ (fuel : ℕ) (acc : ℚ × Option ℕ),
    traverseLoop arr order prims r fuel [] acc = acc := by
  intro fuel acc
  cases fuel <;> rfl

theorem traverseLoop_leaf_step (arr : List LinearBVHNode) (order : List ℕ)
    (prims : List Primitive) (r : Ray) (fuel idx : ℕ) (rest : List ℕ) (acc : ℚ × Option ℕ)
    (b : Bounds3) (f n : ℕ)
    (hhead : arr[idx]? = some (LinearBVHNode.new_leaf_node b (u32 f) (u16 n)))
    (hf : f < 2^32) (hn1 : 1 ≤ n) (hn2 : n < 2^16) :
    traverseLoop arr order prims r (fuel + 1) (idx :: rest) acc
      = traverseLoop arr order prims r fuel rest
          (if b.rayHit r acc.1 then ((order.drop f).take n).foldl (primUpdate prims r) acc
           else acc) := by
  simp only [traverseLoop]
  rw [hhead]
  dsimp only [LinearBVHNode.new_leaf_node]
  rw [u16_val n hn2, u32_val f hf]
  by_cases hhit : b.rayHit r acc.1 = true
  · rw [if_pos hhit, if_pos hhit, if_pos (by omega : 0 < n)]
  · rw [if_neg hhit, if_neg hhit]

theorem traverseLoop_interior_step (arr : List LinearBVHNode) (order : List ℕ)
    (prims : List Primitive) (r : Ray) (fuel idx : ℕ) (rest : List ℕ) (acc : ℚ × Option ℕ)
    (b : Bounds3) (off2 : ℕ) (ax8 : Fin (2^8))
    (hhead : arr[idx]? = some (LinearBVHNode.new_interior_node b (u32 off2) ax8))
    (hoff : off2 < 2^32) :
    traverseLoop arr order prims r (fuel + 1) (idx :: rest) acc
      = if b.rayHit r acc.1 then
          (if dirComponent r.d ax8 < 0 then
            traverseLoop arr order prims r fuel (off2 :: (idx + 1) :: rest) acc
           else traverseLoop arr order prims r fuel ((idx + 1) :: off2 :: rest) acc)
        else traverseLoop arr order prims r fuel rest acc := by
  simp only [traverseLoop]
  rw [hhead]
  dsimp only [LinearBVHNode.new_interior_node]
  rw [u32_val off2 hoff]
  by_cases hhit : b.rayHit r acc.1 = true
  · rw [if_pos hhit, if_pos hhit]
    rw [if_neg (by simp [u16] : ¬ 0 < ((u16 0 : Fin (2^16)) : ℕ))]
  · rw [if_neg hhit, if_neg hhit]

end PbrBVH

namespace PbrBVH

theorem traverseLoop_sim {prims : List Primitive} {r : Ray} {order : List ℕ} :
    ∀ {nd : BVHBuildNode} {seg : List ℕ}, TreeO prims order nd seg →
    ∀ (arr : List LinearBVHNode) (idx : ℕ) (rest : List ℕ) (acc : ℚ × Option ℕ) (fuel : ℕ),
      SliceAt arr idx nd → GoodAt nd idx → nd.size ≤ fuel →
      ∃ k, 1 ≤ k ∧ k ≤ nd.size ∧
        traverseLoop arr order prims r fuel (idx :: rest) acc
          = traverseLoop arr order prims r (fuel - k) rest (visitAcc prims order r nd acc) := by
  intro nd seg htree
  induction htree with
  | leaf b ax f seg hbs hn hsl =>
    intro arr idx rest acc fuel hslice hgood hfuel
    have hsz : (BVHBuildNode.mk b none none ax f seg.length).size = 1 := rfl
    rcases fuel with _ | fuel
    · omega
    have hhead := sliceAt_head hslice
    rw [flattenTree_leaf] at hhead
    simp only [List.getElem?_cons_zero] at hhead
    simp only [GoodAt] at hgood
    obtain ⟨hf, hn1, hn2⟩ := hgood
    refine ⟨1, le_refl 1, by omega, ?_⟩
    rw [traverseLoop_leaf_step arr order prims r fuel idx rest acc b f seg.length
      hhead hf hn1 hn2]
    rw [visitAcc_leaf]
    simp only [Nat.add_sub_cancel]
  | interior b ax c0 c1 seg0 seg1 h0 h1 hbb ih0 ih1 =>
    intro arr idx rest acc fuel hslice hgood hfuel
    simp only [GoodAt] at hgood
    obtain ⟨hfit, hg0, hg1⟩ := hgood
    have hsz : (BVHBuildNode.mk b (some c0) (some c1) ax 0 0).size = 1 + c0.size + c1.size := rfl
    have s0p := size_pos c0
    have s1p := size_pos c1
    rcases fuel with _ | fuel
    · omega
    have hhead := sliceAt_head hslice
    rw [flattenTree_interior] at hhead
    simp only [List.getElem?_cons_zero] at hhead
    have hstep := traverseLoop_interior_step arr order prims r fuel idx rest acc b
      (idx + 1 + c0.size) ax.toU8 hhead hfit
    rw [hstep, visitAcc_interior]
    have hs0 := sliceAt_child0 hslice
    have hs1 := sliceAt_child1 hslice
    by_cases hhit : b.rayHit r acc.1 = true
    · rw [if_pos hhit, if_pos hhit]
      by_cases hneg : dirComponent r.d ax.toU8 < 0
      · rw [if_pos hneg, if_pos hneg]
        obtain ⟨k1, hk11, hk12, he1⟩ :=
          ih1 arr (idx + 1 + c0.size) ((idx + 1) :: rest) acc fuel hs1 hg1 (by omega)
        rw [he1]
        obtain ⟨k2, hk21, hk22, he2⟩ :=
          ih0 arr (idx + 1) rest (visitAcc prims order r c1 acc) (fuel - k1) hs0 hg0 (by omega)
        rw [he2]
        refine ⟨1 + k1 + k2, by omega, by omega, ?_⟩
        have hfe : fuel - k1 - k2 = fuel + 1 - (1 + k1 + k2) := by omega
        rw [hfe]
      · rw [if_neg hneg, if_neg hneg]
        obtain ⟨k1, hk11, hk12, he1⟩ :=
          ih0 arr (idx + 1) ((idx + 1 + c0.size) :: rest) acc fuel hs0 hg0 (by omega)
        rw [he1]
        obtain ⟨k2, hk21, hk22, he2⟩ :=
          ih1 arr (idx + 1 + c0.size) rest (visitAcc prims order r c0 acc) (fuel - k1) hs1 hg1
            (by omega)
        rw [he2]
        refine ⟨1 + k1 + k2, by omega, by omega, ?_⟩
        have hfe : fuel - k1 - k2 = fuel + 1 - (1 + k1 + k2) := by omega
        rw [hfe]
    · rw [if_neg hhit, if_neg hhit]
      refine ⟨1, le_refl 1, by omega, ?_⟩
      simp only [Nat.add_sub_cancel]

end PbrBVH

namespace PbrBVH

theorem traverseLoopP_nil (arr : List LinearBVHNode) (order : List ℕ) (prims : List Primitive)
    (r : Ray) (t_max : ℚ) : ∀ (fuel : ℕ),
    traverseLoopP arr order prims r t_max fuel [] = false := by
  intro fuel
  cases fuel <;> rfl

theorem traverseLoopP_leaf_step (arr : List LinearBVHNode) (order : List ℕ)
    (prims : List Primitive) (r : Ray) (t_max : ℚ) (fuel idx : ℕ) (rest : List ℕ)
    (b : Bounds3) (f n : ℕ)
    (hhead : arr[idx]? = some (LinearBVHNode.new_leaf_node b (u32 f) (u16 n)))
    (hf : f < 2^32) (hn1 : 1 ≤ n) (hn2 : n < 2^16) :
    traverseLoopP arr order prims r t_max (fuel + 1) (idx :: rest)
      = (visitP prims order r t_max (.mk b none none Axis.X f n)
          || traverseLoopP arr order prims r t_max fuel rest) := by
  simp only [traverseLoopP]
  rw [hhead]
  dsimp only [LinearBVHNode.new_leaf_node]
  rw [u16_val n hn2, u32_val f hf, visitP_leaf]
  by_cases hhit : b.rayHit r t_max = true
  · rw [if_pos hhit, if_pos hhit, if_pos (by omega : 0 < n)]
    by_cases hany : ((order.drop f).take n).any (primAnyHit prims r t_max) = true
    · rw [if_pos hany, hany]
      rfl
    · rw [if_neg hany]
      rw [Bool.not_eq_true] at hany
      rw [hany]
      rfl
  · rw [if_neg hhit, if_neg hhit]
    rfl

theorem traverseLoopP_interior_step (arr : List LinearBVHNode) (order : List ℕ)
    (prims : List Primitive) (r : Ray) (t_max : ℚ) (fuel idx : ℕ) (rest : List ℕ)
    (b : Bounds3) (off2 : ℕ) (ax8 : Fin (2^8))
    (hhead : arr[idx]? = some (LinearBVHNode.new_interior_node b (u32 off2) ax8))
    (hoff : off2 < 2^32) :
    traverseLoopP arr order prims r t_max (fuel + 1) (idx :: rest)
      = if b.rayHit r t_max then
          (if dirComponent r.d ax8 < 0 then
            traverseLoopP arr order prims r t_max fuel (off2 :: (idx + 1) :: rest)
           else traverseLoopP arr order prims r t_max fuel ((idx + 1) :: off2 :: rest))
        else traverseLoopP arr order prims r t_max fuel rest := by
  simp only [traverseLoopP]
  rw [hhead]
  dsimp only [LinearBVHNode.new_interior_node]
  rw [u32_val off2 hoff]
  by_cases hhit : b.rayHit r t_max = true
  · rw [if_pos hhit, if_pos hhit]
    rw [if_neg (by simp [u16] : ¬ 0 < ((u16 0 : Fin (2^16)) : ℕ))]
  · rw [if_neg hhit, if_neg hhit]

theorem traverseLoopP_sim {prims : List Primitive} {r : Ray} {order : List ℕ} {t_max : ℚ} :
    ∀ {nd : BVHBuildNode} {seg : List ℕ}, TreeO prims order nd seg →
    ∀ (arr : List LinearBVHNode) (idx : ℕ) (rest : List ℕ) (fuel : ℕ),
      SliceAt arr idx nd → GoodAt nd idx → nd.size ≤ fuel →
      ∃ k, 1 ≤ k ∧ k ≤ nd.size ∧
        traverseLoopP arr order prims r t_max fuel (idx :: rest)
          = (visitP prims order r t_max nd
              || traverseLoopP arr order prims r t_max (fuel - k) rest) := by
  intro nd seg htree
  induction htree with
  | leaf b ax f seg hbs hn hsl =>
    intro arr idx rest fuel hslice hgood hfuel
    have hsz : (BVHBuildNode.mk b none none ax f seg.length).size = 1 := rfl
    rcases fuel with _ | fuel
    · omega
    have hhead := sliceAt_head hslice
    rw [flattenTree_leaf] at hhead
    simp only [List.getElem?_cons_zero] at hhead
    simp only [GoodAt] at hgood
    obtain ⟨hf, hn1, hn2⟩ := hgood
    refine ⟨1, le_refl 1, by omega, ?_⟩
    rw [traverseLoopP_leaf_step arr order prims r t_max fuel idx rest b f seg.length
      hhead hf hn1 hn2]
    simp only [Nat.add_sub_cancel]
    rw [visitP_leaf, visitP_leaf]
  | interior b ax c0 c1 seg0 seg1 h0 h1 hbb ih0 ih1 =>
    intro arr idx rest fuel hslice hgood hfuel
    simp only [GoodAt] at hgood
    obtain ⟨hfit, hg0, hg1⟩ := hgood
    have hsz : (BVHBuildNode.mk b (some c0) (some c1) ax 0 0).size = 1 + c0.size + c1.size := rfl
    have s0p := size_pos c0
    have s1p := size_pos c1
    rcases fuel with _ | fuel
    · omega
    have hhead := sliceAt_head hslice
    rw [flattenTree_interior] at hhead
    simp only [List.getElem?_cons_zero] at hhead
    have hstep := traverseLoopP_interior_step arr order prims r t_max fuel idx rest b
      (idx + 1 + c0.size) ax.toU8 hhead hfit
    rw [hstep, visitP_interior]
    have hs0 := sliceAt_child0 hslice
    have hs1 := sliceAt_child1 hslice
    by_cases hhit : b.rayHit r t_max = true
    · rw [if_pos hhit, if_pos hhit]
      by_cases hneg : dirComponent r.d ax.toU8 < 0
      · rw [if_pos hneg, if_pos hneg]
        obtain ⟨k1, hk11, hk12, he1⟩ :=
          ih1 arr (idx + 1 + c0.size) ((idx + 1) :: rest) fuel hs1 hg1 (by omega)
        rw [he1]
        obtain ⟨k2, hk21, hk22, he2⟩ :=
          ih0 arr (idx + 1) rest (fuel - k1) hs0 hg0 (by omega)
        rw [he2]
        refine ⟨1 + k1 + k2, by omega, by omega, ?_⟩
        have hfe : fuel - k1 - k2 = fuel + 1 - (1 + k1 + k2) := by omega
        rw [hfe, Bool.or_assoc]
      · rw [if_neg hneg, if_neg hneg]
        obtain ⟨k1, hk11, hk12, he1⟩ :=
          ih0 arr (idx + 1) ((idx + 1 + c0.size) :: rest) fuel hs0 hg0 (by omega)
        rw [he1]
        obtain ⟨k2, hk21, hk22, he2⟩ :=
          ih1 arr (idx + 1 + c0.size) rest (fuel - k1) hs1 hg1 (by omega)
        rw [he2]
        refine ⟨1 + k1 + k2, by omega, by omega, ?_⟩
        have hfe : fuel - k1 - k2 = fuel + 1 - (1 + k1 + k2) := by omega
        rw [hfe, Bool.or_assoc]
    · rw [if_neg hhit, if_neg hhit]
      refine ⟨1, le_refl 1, by omega, ?_⟩
      simp only [Nat.add_sub_cancel, Bool.false_or]

end PbrBVH

namespace PbrBVH

theorem traverseLoop_root {prims : List Primitive} {r : Ray} {order : List ℕ}
    {nd : BVHBuildNode} {seg : List ℕ}
    (htree : TreeO prims order nd seg) (hgood : GoodAt nd 0) (acc : ℚ × Option ℕ) :
    traverseLoop (flattenTree nd 0) order prims r (flattenTree nd 0).length [0] acc
      = visitAcc prims order r nd acc := by
  have hsz : nd.size ≤ (flattenTree nd 0).length := by rw [flattenTree_length]
  obtain ⟨k, -, -, he⟩ := traverseLoop_sim htree (flattenTree nd 0) 0 [] acc
    (flattenTree nd 0).length (sliceAt_self nd) hgood hsz
  rw [he, traverseLoop_nil]

theorem traverseLoopP_root {prims : List Primitive} {r : Ray} {order : List ℕ} {t_max : ℚ}
    {nd : BVHBuildNode} {seg : List ℕ}
    (htree : TreeO prims order nd seg) (hgood : GoodAt nd 0) :
    traverseLoopP (flattenTree nd 0) order prims r t_max (flattenTree nd 0).length [0]
      = visitP prims order r t_max nd := by
  have hsz : nd.size ≤ (flattenTree nd 0).length := by rw [flattenTree_length]
  obtain ⟨k, -, -, he⟩ := traverseLoopP_sim htree (flattenTree nd 0) 0 []
    (flattenTree nd 0).length (sliceAt_self nd) hgood hsz
  rw [he, traverseLoopP_nil, Bool.or_false]

theorem linearScan_characterization (prims : List Primitive) (r : Ray) (t_max : ℚ) :
    match linearScan prims r t_max with
    | some (i, t) => ValidHit prims r i t ∧ t < t_max
        ∧ ∀ j u, ValidHit prims r j u → u < t_max → t ≤ u
    | none => ∀ j u, ValidHit prims r j u → ¬ u < t_max := by
  have hpost := foldl_primUpdate_post prims r (List.range prims.length) (t_max, none)
  unfold linearScan
  rcases hres : (List.range prims.length).foldl (primUpdate prims r) (t_max, none) with ⟨t, bopt⟩
  rw [hres] at hpost
  obtain ⟨hle, hd, hmin⟩ := hpost
  have hmem : ∀ j u, ValidHit prims r j u → j ∈ List.range prims.length := by
    intro j u hv
    obtain ⟨p, hp, -, -⟩ := hv
    exact List.mem_range.mpr (List.getElem?_eq_some.mp hp).1
  rcases bopt with _ | i <;> dsimp only
  · intro j u hv hu
    rcases hd with heq | ⟨i, hi, hvi, hbi, hlt⟩
    · have ht : t = t_max := congrArg Prod.fst heq
      have := hmin j (hmem j u hv) u hv hu
      linarith
    · cases hbi
  · rcases hd with heq | ⟨i', hi', hvi, hbi, hlt⟩
    · exact absurd (congrArg Prod.snd heq) (by simp)
    · have hbi' : some i = some i' := hbi
      injection hbi' with hie
      subst hie
      exact ⟨hvi, hlt, fun j u hv hu => hmin j (hmem j u hv) u hv hu⟩

end PbrBVH

namespace PbrBVH

theorem nodes_isEmpty_false (root : BVHBuildNode) : (flattenTree root 0).isEmpty = false := by
  have hl := flattenTree_length root 0
  have hp := size_pos root
  rcases hfe : flattenTree root 0 with _ | ⟨x, xs⟩
  · rw [hfe] at hl
    simp at hl
    omega
  · rfl

theorem intersect_characterization (prims : List Primitive) (maxPrims : ℕ)
    (method : SplitMethod) (r : Ray) (t_max : ℚ) (hn : prims.length < 2^16)
    (hb : ∀ p ∈ prims, ∀ t, p.intersectT r = some t → p.world_bound.containsPoint (r.at t)) :
    match (BVHAccel.new prims maxPrims method).intersect r t_max with
    | some (i, t) => ValidHit prims r i t ∧ t < t_max
        ∧ ∀ j u, ValidHit prims r j u → u < t_max → t ≤ u
    | none => ∀ j u, ValidHit prims r j u → ¬ u < t_max := by
  by_cases hne : prims = []
  · subst hne
    show ∀ j u, ValidHit [] r j u → ¬ u < t_max
    intro j u hv
    obtain ⟨p, hp, -, -⟩ := hv
    simp at hp
  · obtain ⟨seg, htree, hsegperm, hordperm⟩ := builtFor_spec prims method maxPrims hne
    have hlen : (builtFor method maxPrims (infosOf prims)).2.length = prims.length := by
      rw [hordperm.length_eq, List.length_range]
    have hseglen : seg.length = prims.length := by
      rw [hsegperm.length_eq, List.length_range]
    have hsz := htree.sizeBound
    have hgood : GoodAt (builtFor method maxPrims (infosOf prims)).1 0 :=
      htree.goodAtOf 0 (2 * prims.length) (by omega) (by omega) (by omega)
    have hiect : (BVHAccel.new prims maxPrims method).intersect r t_max
        = match visitAcc prims (builtFor method maxPrims (infosOf prims)).2 r
            (builtFor method maxPrims (infosOf prims)).1 (t_max, none) with
          | (_, none) => none
          | (t, some i) => some (i, t) := by
      rw [BVHAccel_new_of_ne prims maxPrims method hne]
      unfold BVHAccel.intersect
      dsimp only
      rw [if_neg (by rw [nodes_isEmpty_false]; exact Bool.false_ne_true)]
      rw [traverseLoop_root htree hgood (t_max, none)]
    have hpost := visitAcc_post hb htree (t_max, none)
    have hmem : ∀ j u, ValidHit prims r j u → j ∈ seg := by
      intro j u hv
      obtain ⟨p, hp, -, -⟩ := hv
      exact hsegperm.mem_iff.mpr (List.mem_range.mpr (List.getElem?_eq_some.mp hp).1)
    rcases hres : visitAcc prims (builtFor method maxPrims (infosOf prims)).2 r
        (builtFor method maxPrims (infosOf prims)).1 (t_max, none) with ⟨t, bopt⟩
    rw [hres] at hiect hpost
    obtain ⟨hle, hd, hmin⟩ := hpost
    rcases bopt with _ | i
    · rw [hiect]
      intro j u hv hu
      rcases hd with heq | ⟨i, hi, hvi, hbi, hlt⟩
      · have ht : t = t_max := congrArg Prod.fst heq
        have := hmin j (hmem j u hv) u hv hu
        linarith
      · cases hbi
    · rw [hiect]
      rcases hd with heq | ⟨i', hi', hvi, hbi, hlt⟩
      · exact absurd (congrArg Prod.snd heq) (by simp)
      · have hbi' : some i = some i' := hbi
        injection hbi' with hie
        subst hie
        exact ⟨hvi, hlt, fun j u hv hu => hmin j (hmem j u hv) u hv hu⟩

end PbrBVH

namespace PbrBVH

theorem intersectP_characterization (prims : List Primitive) (maxPrims : ℕ)
    (method : SplitMethod) (r : Ray) (t_max : ℚ) (hn : prims.length < 2^16)
    (hb : ∀ p ∈ prims, ∀ t, p.intersectT r = some t → p.world_bound.containsPoint (r.at t)) :
    ((BVHAccel.new prims maxPrims method).intersect_p r t_max = true
      ↔ ∃ i u, ValidHit prims r i u ∧ u < t_max) := by
  by_cases hne : prims = []
  · subst hne
    constructor
    · intro h
      cases h
    · rintro ⟨i, u, ⟨p, hp, -, -⟩, -⟩
      simp at hp
  · obtain ⟨seg, htree, hsegperm, hordperm⟩ := builtFor_spec prims method maxPrims hne
    have hlen : (builtFor method maxPrims (infosOf prims)).2.length = prims.length := by
      rw [hordperm.length_eq, List.length_range]
    have hseglen : seg.length = prims.length := by
      rw [hsegperm.length_eq, List.length_range]
    have hsz := htree.sizeBound
    have hgood : GoodAt (builtFor method maxPrims (infosOf prims)).1 0 :=
      htree.goodAtOf 0 (2 * prims.length) (by omega) (by omega) (by omega)
    have hpect : (BVHAccel.new prims maxPrims method).intersect_p r t_max
        = visitP prims (builtFor method maxPrims (infosOf prims)).2 r t_max
            (builtFor method maxPrims (infosOf prims)).1 := by
      rw [BVHAccel_new_of_ne prims maxPrims method hne]
      unfold BVHAccel.intersect_p
      dsimp only
      rw [if_neg (by rw [nodes_isEmpty_false]; exact Bool.false_ne_true)]
      rw [traverseLoopP_root htree hgood]
    rw [hpect, visitP_iff hb htree]
    have hmem : ∀ j u, ValidHit prims r j u → j ∈ seg := by
      intro j u hv
      obtain ⟨p, hp, -, -⟩ := hv
      exact hsegperm.mem_iff.mpr (List.mem_range.mpr (List.getElem?_eq_some.mp hp).1)
    constructor
    · rintro ⟨i, hi, u, hv, hu⟩
      exact ⟨i, u, hv, hu⟩
    · rintro ⟨i, u, hv, hu⟩
      exact ⟨i, hmem i u hv, u, hv, hu⟩

/-- C1: for every built structure (any split method, including the HLBVH
clustered builder) and every ray, the closest-hit query returns a primitive
the ray validly hits whose hit parameter is the minimum positive value
within the `(0, t_max)` window (and no hit exactly when no primitive is
validly hit in the window), and its hit parameter agrees with the
brute-force linear scan over all primitives. -/
theorem bvh_intersect_agrees_with_linear_scan (prims : List Primitive) (maxPrims : ℕ)
    (method : SplitMethod) (r : Ray) (t_max : ℚ) (hn : prims.length < 2^16)
    (hb : ∀ p ∈ prims, ∀ t, p.intersectT r = some t → p.world_bound.containsPoint (r.at t)) :
    (match (BVHAccel.new prims maxPrims method).intersect r t_max with
     | some (i, t) => ValidHit prims r i t ∧ t < t_max
         ∧ ∀ j u, ValidHit prims r j u → u < t_max → t ≤ u
     | none => ∀ j u, ValidHit prims r j u → ¬ u < t_max)
    ∧ Option.map Prod.snd ((BVHAccel.new prims maxPrims method).intersect r t_max)
        = Option.map Prod.snd (linearScan prims r t_max) := by
  have h1 := intersect_characterization prims maxPrims method r t_max hn hb
  have h2 := linearScan_characterization prims r t_max
  refine ⟨h1, ?_⟩
  rcases ha : (BVHAccel.new prims maxPrims method).intersect r t_max with _ | ⟨i, t⟩
  · rw [ha] at h1
    rcases hc : linearScan prims r t_max with _ | ⟨j, u⟩
    · rfl
    · rw [hc] at h2
      dsimp only at h1 h2
      obtain ⟨hv, hlt, -⟩ := h2
      exact absurd hlt (h1 j u hv)
  · rw [ha] at h1
    rcases hc : linearScan prims r t_max with _ | ⟨j, u⟩
    · rw [hc] at h2
      dsimp only at h1 h2
      obtain ⟨hv, hlt, -⟩ := h1
      exact absurd hlt (h2 i t hv)
    · rw [hc] at h2
      dsimp only at h1 h2
      obtain ⟨hv1, hlt1, hmin1⟩ := h1
      obtain ⟨hv2, hlt2, hmin2⟩ := h2
      have he := le_antisymm (hmin1 j u hv2 hlt2) (hmin2 i t hv1 hlt1)
      show some t = some u
      rw [he]

/-- C2: for every built structure (any split method, including the HLBVH
clustered builder) and every ray, the any-hit query `intersect_p` returns
true exactly when the closest-hit query `intersect` returns a hit, both
over the same `(0, t_max)` window. -/
theorem bvh_intersect_p_iff_intersect (prims : List Primitive) (maxPrims : ℕ)
    (method : SplitMethod) (r : Ray) (t_max : ℚ) (hn : prims.length < 2^16)
    (hb : ∀ p ∈ prims, ∀ t, p.intersectT r = some t → p.world_bound.containsPoint (r.at t)) :
    (BVHAccel.new prims maxPrims method).intersect_p r t_max
      = ((BVHAccel.new prims maxPrims method).intersect r t_max).isSome := by
  have h1 := intersect_characterization prims maxPrims method r t_max hn hb
  have h2 := intersectP_characterization prims maxPrims method r t_max hn hb
  rcases ha : (BVHAccel.new prims maxPrims method).intersect r t_max with _ | ⟨i, t⟩ <;>
    rw [ha] at h1 <;> dsimp only at h1 ⊢
  · cases hp : (BVHAccel.new prims maxPrims method).intersect_p r t_max
    · rfl
    · obtain ⟨i, u, hv, hu⟩ := h2.mp hp
      exact absurd hu (h1 i u hv)
  · rw [Option.isSome_some]
    exact h2.mpr ⟨i, t, h1.1, h1.2.1⟩

end PbrBVH

namespace PbrBVH

theorem demoScene_hb : ∀ p ∈ demoScene, ∀ t, p.intersectT demoRay = some t
    → p.world_bound.containsPoint (demoRay.at t) := by
  intro p hp t ht
  fin_cases hp
  · simp only [demoPrimHit] at ht
    injection ht with hte
    subst hte
    show (demoBox 0).containsPoint (demoRay.at (1/2))
    unfold demoBox demoRay Ray.at Bounds3.containsPoint
    norm_num
  · simp only [demoPrimMiss] at ht
    cases ht
  · simp only [demoPrimMiss] at ht
    cases ht

/-- Witness for C1: the closest-hit agreement on the three-cube demo scene,
built with the HLBVH clustered builder. -/
theorem bvh_intersect_agrees_witness :
    (demoScene.length < 2^16
      ∧ ∀ p ∈ demoScene, ∀ t, p.intersectT demoRay = some t
          → p.world_bound.containsPoint (demoRay.at t))
    ∧ ((match (BVHAccel.new demoScene 1 SplitMethod.HLBVH).intersect demoRay 100 with
        | some (i, t) => ValidHit demoScene demoRay i t ∧ t < 100
            ∧ ∀ j u, ValidHit demoScene demoRay j u → u < 100 → t ≤ u
        | none => ∀ j u, ValidHit demoScene demoRay j u → ¬ u < 100)
      ∧ Option.map Prod.snd
          ((BVHAccel.new demoScene 1 SplitMethod.HLBVH).intersect demoRay 100)
          = Option.map Prod.snd (linearScan demoScene demoRay 100)) :=
  ⟨⟨by decide, demoScene_hb⟩,
   bvh_intersect_agrees_with_linear_scan demoScene 1 SplitMethod.HLBVH demoRay 100
     (by decide) demoScene_hb⟩

/-- Witness for C2: the any-hit/closest-hit agreement on the demo scene. -/
theorem bvh_intersect_p_iff_witness :
    (demoScene.length < 2^16
      ∧ ∀ p ∈ demoScene, ∀ t, p.intersectT demoRay = some t
          → p.world_bound.containsPoint (demoRay.at t))
    ∧ (BVHAccel.new demoScene 1 SplitMethod.HLBVH).intersect_p demoRay 100
        = ((BVHAccel.new demoScene 1 SplitMethod.HLBVH).intersect demoRay 100).isSome :=
  ⟨⟨by decide, demoScene_hb⟩,
   bvh_intersect_p_iff_intersect demoScene 1 SplitMethod.HLBVH demoRay 100
     (by decide) demoScene_hb⟩

end PbrBVH
